import Mathlib

/-!
Shallow embedding of the triangulation-detection core of the `dna-bukkets`
repository (files `optimized_triangulation.py`, `simple_triangulation.py`,
`painter.py`, and the triangulation-related parts of `dna_gui_main.py`),
together with proofs settling the frozen claims about it.

Conventions of the embedding:
* A pandas row of the segment table is a `Row`; a pandas row keeps its index
  label (`Series.name`), so a row travelling through an engine is modelled as
  a `Seg` = (index label, row data), matching the
  `{'index': idx, 'data': row, ...}` dictionaries built by the engines.
* Base-pair positions and thresholds are `Int` (Python ints), centimorgans
  are exact rationals (Python floats; no claim below depends on rounding).
* Python `list.sort` / `sorted` are stable; they are embedded as a stable
  insertion sort `sortBy'`.
* `set` membership tests are embedded as list membership; where a Python
  `for` loop iterates over a set whose iteration order is unspecified, the
  affected theorems are stated at the level of membership, not list order.
-/

/-- One row of the segment table: the fields used by the engines and the
reports (`Match Name`, `Chromosome`, `Start Location`, `End Location`,
`Centimorgans`, `Matching SNPs`). -/
structure Row where
  matchName : String
  chromosome : String
  startLocation : Int
  endLocation : Int
  centimorgans : Rat
  matchingSNPs : Int
  deriving DecidableEq, Repr

/-- A segment as carried through an engine: the pandas index label `idx`
plus the row, as in `{'index': idx, 'data': row, 'start': ..., 'end': ...}`
(`_process_chromosome_optimized`, lines 76-85). -/
structure Seg where
  index : Nat
  data : Row
  deriving DecidableEq, Repr

/-- The `start` key of a segment dictionary. -/
def Seg.start (s : Seg) : Int := s.data.startLocation

/-- The `end` key of a segment dictionary. -/
def Seg.stop (s : Seg) : Int := s.data.endLocation

/-- The overlap in base pairs between two rows:
`max(0, min(A.end, B.end) - max(A.start, B.start))`
(spec §4.1; `optimized_triangulation.py` lines 111-113). -/
def overlapBp (a b : Row) : Int :=
  max 0 (min a.endLocation b.endLocation - max a.startLocation b.startLocation)

/-- The raw (unclamped) overlap used by the simple engine
(`simple_triangulation.py` lines 80-82: `overlap_end - overlap_start`,
with no `max(0, ...)`). -/
def rawOverlap (a b : Row) : Int :=
  min a.endLocation b.endLocation - max a.startLocation b.startLocation

/-- Stable insertion: place `x` before the first element `t` for which
`before x t` holds.  With `before x t = (key x ≤ key t)` this yields a
stable ascending sort; with `(key x ≥ key t)` a stable descending sort,
matching Python's stable `list.sort` / `sorted(..., reverse=True)`. -/
def insertBy' (before : α → α → Bool) (x : α) : List α → List α
  | [] => [x]
  | t :: ts => if before x t then x :: t :: ts else t :: insertBy' before x ts

/-- Stable insertion sort (the embedding of Python's stable sorts). -/
def sortBy' (before : α → α → Bool) : List α → List α
  | [] => []
  | x :: xs => insertBy' before x (sortBy' before xs)

/-- Python `segments.sort(key=lambda x: x['start'])`
(`optimized_triangulation.py` line 88): stable ascending sort by `start`. -/
def sortByStart (segs : List Seg) : List Seg :=
  sortBy' (fun a b => a.start ≤ b.start) segs

/-! ### Optimized engine: `_process_chromosome_optimized` (lines 62-148)

The debug printing (lines 67-73, 101-104, 115-119, 125-126, 130-138, 147)
produces no data and is omitted. -/

/-- One step of the inner loop of `_process_chromosome_optimized`
(lines 106-126): skip `j == i` or a segment whose `index` is already in
`current_group_indices`; otherwise add it to the star when the clamped
overlap with the seed is `≥ min_overlap_bp`.  The accumulator is
`(current_group, current_group_indices)`. -/
def optStarStep (seed : Seg) (i : Nat) (minOverlapBp : Int)
    (acc : List Seg × List Nat) (js : Nat × Seg) : List Seg × List Nat :=
  let (group, gidx) := acc
  let (j, segment2) := js
  if j = i ∨ segment2.index ∈ gidx then acc
  else
    let actualOverlap := max 0 (min seed.stop segment2.stop - max seed.start segment2.start)
    if minOverlapBp ≤ actualOverlap then (group ++ [segment2], gidx ++ [segment2.index])
    else acc

/-- The star collected for seed `segment1` at position `i` of the sorted
segment list (lines 98-126): starts as `([seed], {seed.index})` and scans
every position `j`. -/
def optStar (segments : List Seg) (i : Nat) (segment1 : Seg) (minOverlapBp : Int) :
    List Seg :=
  (segments.enum.foldl (optStarStep segment1 i minOverlapBp)
    ([segment1], [segment1.index])).1

/-- One step of the outer loop of `_process_chromosome_optimized`
(lines 93-145): skip a seed whose index is in `processed_indices`; collect
its star; if the star reaches `min_group_size`, emit it and mark all its
members' indices processed.  The accumulator is `(groups, processed_indices)`. -/
def optOuterStep (segments : List Seg) (minOverlapBp : Int) (minGroupSize : Int)
    (acc : List (List Seg) × List Nat) (is1 : Nat × Seg) :
    List (List Seg) × List Nat :=
  let (groups, processed) := acc
  let (i, segment1) := is1
  if segment1.index ∈ processed then acc
  else
    let currentGroup := optStar segments i segment1 minOverlapBp
    if minGroupSize ≤ (currentGroup.length : Int) then
      (groups ++ [currentGroup], processed ++ currentGroup.map Seg.index)
    else acc

/-- The body of `_process_chromosome_optimized` for one chromosome's segment list:
sort by `start` (line 88), then run the greedy seed-and-collect loop
(lines 90-145).  Groups are returned as lists of `Seg` (a pandas row keeps
its index label, so `[seg['data'] for seg in current_group]` loses no
identity information). -/
def optProcessChromosome (chrSegs : List Seg) (minOverlapBp : Int)
    (minGroupSize : Int) : List (List Seg) :=
  let segments := sortByStart chrSegs
  (segments.enum.foldl (optOuterStep segments minOverlapBp minGroupSize)
    ([], [])).1

/-! ### Simple engine: `_find_overlapping_groups_simple`
(`simple_triangulation.py` lines 56-123)

The segment dictionaries here carry no `'index'` key; a segment's identity
is the Python dict object, i.e. its position in the chromosome's list, so
the embedding tags each segment with its position (`enumerate` index).
Debug output (the `debug_output` list) carries no grouping data and is
omitted. -/

/-- One step of the inner loop (lines 75-100): skip `j == i` or
`j in used_segments`; otherwise add `(j, segment2)` to the group when the
raw overlap with the seed is `≥ min_overlap_bp` (note: no `max(0, ...)`
clamp in this engine).  Accumulator: `(current_group, current_indices)`. -/
def simpleStarStep (segment1 : Row) (i : Nat) (used : List Nat)
    (minOverlapBp : Int) (acc : List (Nat × Row) × List Nat)
    (js : Nat × Row) : List (Nat × Row) × List Nat :=
  let (group, gidx) := acc
  let (j, segment2) := js
  if j = i ∨ j ∈ used then acc
  else
    let actualOverlap := min segment1.endLocation segment2.endLocation -
      max segment1.startLocation segment2.startLocation
    if minOverlapBp ≤ actualOverlap then (group ++ [(j, segment2)], gidx ++ [j])
    else acc

/-- The group grown from seed `(i, segment1)` (lines 71-100). -/
def simpleStar (segments : List Row) (i : Nat) (segment1 : Row)
    (used : List Nat) (minOverlapBp : Int) : List (Nat × Row) × List Nat :=
  segments.enum.foldl (simpleStarStep segment1 i used minOverlapBp)
    ([(i, segment1)], [i])

/-- One step of the outer loop (lines 62-121): skip a seed position already
in `used_segments`; otherwise grow its group; if it reaches
`min_group_size`, save it and mark `current_indices` used. -/
def simpleOuterStep (segments : List Row) (minOverlapBp minGroupSize : Int)
    (acc : List (List (Nat × Row)) × List Nat) (is1 : Nat × Row) :
    List (List (Nat × Row)) × List Nat :=
  let (groups, used) := acc
  let (i, segment1) := is1
  if i ∈ used then acc
  else
    let (currentGroup, currentIndices) :=
      simpleStar segments i segment1 used minOverlapBp
    if minGroupSize ≤ (currentGroup.length : Int) then
      (groups ++ [currentGroup], used ++ currentIndices)
    else acc

/-- Function `_find_overlapping_groups_simple`, position-tagged form: the groups with
each member paired with its position in the chromosome's segment list.
No sort happens in this engine (`detect_triangulation_simple` builds the
list in input order, lines 34-43, and passes it straight in at line 46). -/
def simpleFindGroupsTagged (segments : List Row) (minOverlapBp minGroupSize : Int) :
    List (List (Nat × Row)) :=
  (segments.enum.foldl (simpleOuterStep segments minOverlapBp minGroupSize)
    ([], [])).1

/-- Function `_find_overlapping_groups_simple` as returned to the caller:
`group_data = [seg['data'] for seg in current_group]` (line 115). -/
def simpleFindGroups (segments : List Row) (minOverlapBp minGroupSize : Int) :
    List (List Row) :=
  (simpleFindGroupsTagged segments minOverlapBp minGroupSize).map
    (fun g => g.map Prod.snd)

/-! ### Original engine: `DNAChromosomeBrowser.detect_triangulation_groups`
(`painter.py` lines 77-128), per-chromosome part (lines 83-124)

`for i, row1 in chr_data.iterrows()` yields pandas *index labels* `i`
together with rows, so the members carried here are again `Seg`
(label + row); `member.name` is the label and `if i >= j` compares labels. -/

/-- Inner loop of the painter engine (lines 91-109): for each `(j, row2)`,
skip when `i ≥ j` (label comparison); on sufficient clamped overlap, add
`row2` unless a member with the same label is already in the group. -/
def painterStarStep (row1 : Seg) (minOverlapBp : Int)
    (group : List Seg) (row2 : Seg) : List Seg :=
  if row1.index ≥ row2.index then group
  else
    let overlapLength := max 0 (min row1.stop row2.stop - max row1.start row2.start)
    if minOverlapBp ≤ overlapLength then
      if group.any (fun member => member.index = row2.index) then group
      else group ++ [row2]
    else group

/-- The candidate group seeded by `row1` (lines 89-109). -/
def painterStar (chrData : List Seg) (row1 : Seg) (minOverlapBp : Int) :
    List Seg :=
  chrData.foldl (painterStarStep row1 minOverlapBp) [row1]

/-- Python `set(...) == set(...)` on the groups' `Match Name`s
(lines 113-119). -/
def sameNameSet (a b : List Seg) : Bool :=
  (a.map (fun m => m.data.matchName)).all (fun n => n ∈ b.map (fun m => m.data.matchName)) &&
  (b.map (fun m => m.data.matchName)).all (fun n => n ∈ a.map (fun m => m.data.matchName))

/-- Outer loop step of the painter engine (lines 88-122): emit the seeded
group when it reaches `min_group_size` and no already-emitted group has the
same `Match Name` set.  There is no consumed/used set in this engine. -/
def painterOuterStep (chrData : List Seg) (minOverlapBp minGroupSize : Int)
    (groups : List (List Seg)) (row1 : Seg) : List (List Seg) :=
  let currentGroup := painterStar chrData row1 minOverlapBp
  if minGroupSize ≤ (currentGroup.length : Int) then
    if groups.any (fun g => sameNameSet currentGroup g) then groups
    else groups ++ [currentGroup]
  else groups

/-- Method `detect_triangulation_groups` restricted to one chromosome's data
(lines 83-124): sort by `Start Location` (stable `sort_values`, line 84),
then run the seed loop. -/
def painterProcessChromosome (chrSegs : List Seg) (minOverlapBp minGroupSize : Int) :
    List (List Seg) :=
  let chrData := sortBy' (fun a b => a.start ≤ b.start) chrSegs
  chrData.foldl (painterOuterStep chrData minOverlapBp minGroupSize) []

/-! ### Top-level scheduler: `detect_triangulation_groups_optimized`
(`optimized_triangulation.py` lines 16-60) -/

/-- Lexicographic code-point comparison of character lists (the ordering
Python applies to chromosome-key strings). -/
def charListLt : List Char → List Char → Bool
  | _, [] => false
  | [], _ :: _ => true
  | c :: cs, d :: ds =>
    if c.toNat < d.toNat then true
    else if d.toNat < c.toNat then false
    else charListLt cs ds

/-- String comparison by code points (Python `str` ordering). -/
def strLt (a b : String) : Bool := charListLt a.toList b.toList

/-- Python `data.groupby('Chromosome')` (line 32): pandas sorts the group keys
ascending and preserves input order within each group. -/
def groupByChromosome (data : List Seg) : List (String × List Seg) :=
  let keys := (data.map (fun s => s.data.chromosome)).dedup
  (sortBy' strLt keys).map
    (fun c => (c, data.filter (fun s => s.data.chromosome = c)))

/-- Method `detect_triangulation_groups_optimized` (lines 16-60): choose the worker
count (`max(1, cpu_count() - 1)` when unset, lines 26-27), split by
chromosome, keep chromosomes with at least `min_group_size` segments
(lines 36-38), run `_process_chromosome_optimized` over the argument list
via `Pool.map` — which returns results in argument order independently of
the number of worker processes — and flatten (lines 43-50). -/
def detect_triangulation_groups_optimized (cpuCount : Nat)
    (maxWorkers : Option Nat) (data : List Seg)
    (minOverlapBp minGroupSize : Int) : List (List Seg) :=
  let _workers : Nat := match maxWorkers with
    | none => max 1 (cpuCount - 1)
    | some w => w
  let argsList := (groupByChromosome data).filter
    (fun p => minGroupSize ≤ (p.2.length : Int))
  (argsList.map (fun p => optProcessChromosome p.2 minOverlapBp minGroupSize)).flatten

/-- The exception semantics of `pool.map(self._process_chromosome_optimized,
args_list)` (lines 45-46) when a per-chromosome task can fault: `Pool.map`
re-raises the first exception and yields none of the per-task results. -/
def poolMapE (f : α → Except ε β) : List α → Except ε (List β)
  | [] => .ok []
  | x :: xs =>
    match f x with
    | .error e => .error e
    | .ok y =>
      match poolMapE f xs with
      | .error e => .error e
      | .ok ys => .ok (y :: ys)

/-- Method `detect_triangulation_groups_optimized` with the per-chromosome worker
abstracted as a fallible function `proc`, to express what the run does when
one chromosome's processing raises (claim C5): the `Pool.map` at lines 44-50
either yields every chromosome's groups or re-raises the fault, and the
`except` in `run_analysis` (`dna_gui_main.py` lines 738-740) turns the fault
into a single error message, discarding all groups. -/
def detectOptimizedFallible (data : List Seg) (minGroupSize : Int)
    (proc : String × List Seg → Except String (List (List Seg))) :
    Except String (List (List Seg)) :=
  let argsList := (groupByChromosome data).filter
    (fun p => minGroupSize ≤ (p.2.length : Int))
  match poolMapE proc argsList with
  | .error e => .error e
  | .ok results => .ok results.flatten

/-- The `run_analysis` error path (`dna_gui_main.py` lines 738-740): any
exception from the analysis becomes the single message
`"Error during analysis: ..."`; no groups are surfaced. -/
def runAnalysisOutcome (result : Except String (List (List Seg))) : Except String (List (List Seg)) × String :=
  match result with
  | .ok groups => (.ok groups, "")
  | .error e => (.error e, "Error during analysis: " ++ e)

/-! ### Strict pass: `_verify_triangulation_group` and
`_find_connected_components` (`optimized_triangulation.py` lines 150-235)

These operate on one candidate set of segments.  The adjacency sets built at
lines 192-204 contain, for each position `i`, exactly the positions `j ≠ i`
whose clamped overlap with `i` is `≥ min_overlap_bp` (both directions of
every `i < j` pair are inserted).  Python iterates those sets in unspecified
order; the embedding lists neighbours in increasing index, and the theorems
about the pass are stated at the level of membership. -/

/-- The adjacency set `adjacency[i]` (lines 192-204). -/
def neighbors (segs : List Row) (minOverlapBp : Int) (i : Fin segs.length) :
    List (Fin segs.length) :=
  (List.finRange segs.length).filter
    (fun j => j != i && decide (minOverlapBp ≤ overlapBp (segs.get i) (segs.get j)))

/-- The DFS of lines 214-229 over an adjacency function on `Fin n`:
pop a node; skip it if visited; otherwise mark it visited, append it to the
component, and push its not-yet-visited neighbours.  The list `stack` has
its top at the head (Python appends to and pops from the end). -/
def dfsRun {n : Nat} (adj : Fin n → List (Fin n)) (stack : List (Fin n))
    (visited : Finset (Fin n)) (comp : List (Fin n)) :
    Finset (Fin n) × List (Fin n) :=
  match stack with
  | [] => (visited, comp)
  | node :: rest =>
    if node ∈ visited then dfsRun adj rest visited comp
    else
      dfsRun adj
        (((adj node).filter (fun nb => nb ∉ insert node visited)).reverse ++ rest)
        (insert node visited) (comp ++ [node])
termination_by ((Finset.univ \ visited).card, stack.length)
decreasing_by
  · apply Prod.Lex.right
    simp
  · apply Prod.Lex.left
    apply Finset.card_lt_card
    rw [Finset.ssubset_iff_of_subset
      (Finset.sdiff_subset_sdiff (le_refl _) (Finset.subset_insert _ _))]
    exact ⟨node, by simp [*], by simp⟩

/-- The outer loop of `_find_connected_components` (lines 210-233): run a
DFS from each unvisited start node in index order, keeping the strictly
largest component found so far.  The state is `(visited, largest_component)`. -/
def ccLoop {n : Nat} (adj : Fin n → List (Fin n)) :
    List (Fin n) → Finset (Fin n) × List (Fin n) → Finset (Fin n) × List (Fin n)
  | [], st => st
  | startNode :: restStarts, (visited, largest) =>
    if startNode ∈ visited then ccLoop adj restStarts (visited, largest)
    else
      let (visited', component) := dfsRun adj [startNode] visited []
      ccLoop adj restStarts
        (visited', if largest.length < component.length then component else largest)

/-- Method `_find_connected_components` (lines 185-235): below two segments the
input is returned as is; otherwise the largest DFS component's nodes, as
segments (the Python loop appends `segments[node]` at visit time, which is
the same list as mapping the node list through the segment list). -/
def find_connected_components (segments : List Row) (minOverlapBp : Int) :
    List Row :=
  if segments.length < 2 then segments
  else
    ((ccLoop (neighbors segments minOverlapBp) (List.finRange segments.length)
      (∅, [])).2).map segments.get

/-- One candidate of the small-group path of `_verify_triangulation_group`
(lines 164-177): accept the candidate when it overlaps (clamped, `≥ T`) at
least one segment already accepted. -/
def verifyValidStep (minOverlapBp : Int) (validSegments : List Row)
    (candidate : Row) : List Row :=
  if validSegments.any (fun validSeg =>
      decide (minOverlapBp ≤ max 0 (min candidate.endLocation validSeg.endLocation -
        max candidate.startLocation validSeg.startLocation))) then
    validSegments ++ [candidate]
  else validSegments

/-- Method `_verify_triangulation_group` (lines 150-183): fewer than 2 segments are
returned as is; up to 5 segments go through the greedy pass anchored at the
first segment; larger sets go to `_find_connected_components`. -/
def verify_triangulation_group (segments : List Row) (minOverlapBp : Int) :
    List Row :=
  if segments.length < 2 then segments
  else if segments.length ≤ 5 then
    match segments with
    | [] => []
    | s0 :: rest => rest.foldl (verifyValidStep minOverlapBp) [s0]
  else find_connected_components segments minOverlapBp

/-- One step of the pairwise-overlap graph on a candidate set: `j` is a
neighbour of `i`. -/
def OvAdj (segs : List Row) (minOverlapBp : Int) (i j : Fin segs.length) : Prop :=
  j ∈ neighbors segs minOverlapBp i

/-- Connectivity in the pairwise-overlap graph on a candidate set: the
reflexive-transitive closure of adjacency. -/
def OvReach (segs : List Row) (minOverlapBp : Int) :
    Fin segs.length → Fin segs.length → Prop :=
  Relation.ReflTransGen (OvAdj segs minOverlapBp)

/-! ### Surname extraction: `extract_surname`
(`simple_triangulation.py` lines 205-215 and `optimized_triangulation.py`
lines 358-368; the two definitions are textually identical)

Python string operations are embedded on `List Char` so that every theorem
about them evaluates in the kernel. -/

/-- Worker for `removeAll`: while `skip > 0`, the characters of an already
matched occurrence are being consumed without output. -/
def removeAllAux (pat : List Char) : Nat → List Char → List Char
  | _, [] => []
  | skip + 1, _ :: cs => removeAllAux pat skip cs
  | 0, c :: cs =>
    if pat.isPrefixOf (c :: cs) then removeAllAux pat (pat.length - 1) cs
    else c :: removeAllAux pat 0 cs

/-- Python `s.replace(pat, "")` for a non-empty `pat`: remove all
non-overlapping occurrences, scanning left to right. -/
def removeAll (pat : List Char) (s : List Char) : List Char :=
  removeAllAux pat 0 s

/-- Python `s.strip()`: drop leading and trailing whitespace. -/
def trimChars (s : List Char) : List Char :=
  ((s.dropWhile Char.isWhitespace).reverse.dropWhile Char.isWhitespace).reverse

/-- Python `s.split()` (no separator): the maximal non-empty runs of
non-whitespace characters. -/
def splitWhitespace (s : List Char) : List (List Char) :=
  (List.splitOnP (fun c => c.isWhitespace) s).filter (fun w => !w.isEmpty)

/-- The title-stripping chain of `extract_surname` (line 364 / line 211):
`match_name.replace("Mr.", "").replace("Mrs.", "").replace("Dr.", "")
.replace("Ph.D.", "")`, applied left to right. -/
def stripTitles (s : List Char) : List Char :=
  removeAll "Ph.D.".toList
    (removeAll "Dr.".toList (removeAll "Mrs.".toList (removeAll "Mr.".toList s)))

/-- Method `extract_surname` (lines 358-368 / 205-215).  The argument is an
`Option` so that both a missing (`None`) and an empty name take the
`if not match_name` early return. -/
def extract_surname (matchName : Option String) : String :=
  match matchName with
  | none => "Unknown"
  | some s =>
    if s = "" then "Unknown"
    else
      let nameParts := splitWhitespace (trimChars (stripTitles s.toList))
      if 2 ≤ nameParts.length then String.mk (nameParts.getLastD [])
      else
        match nameParts with
        | [] => "Unknown"
        | p :: _ => String.mk p

/-- The surname rule as worded by the spec (§4.4): strip the literal
substrings `"Mr."`, `"Mrs."`, `"Dr."`, `"Ph.D."` (in the order listed),
trim whitespace, split on whitespace; the surname is the last token if at
least two tokens remain, else the sole token, else `"Unknown"`; a missing
name is `"Unknown"`. -/
def surnameSpec (matchName : Option String) : String :=
  match matchName with
  | none => "Unknown"
  | some s =>
    let toks := splitWhitespace (trimChars (stripTitles s.toList))
    if 2 ≤ toks.length then String.mk (toks.getLastD [])
    else
      match toks with
      | [t] => String.mk t
      | _ => "Unknown"

/-! ### Reports: `create_triangulation_report_by_size`
(`optimized_triangulation.py` lines 237-325 and `simple_triangulation.py`
lines 125-203)

Python float formatting (`:.1f`, `:,`, `str`) is modelled by explicit
functions on exact values; no claim below depends on the rendered digits,
only on which lines depend on which inputs. -/

/-- Repeat a character `n` times as a string (e.g. `"=" * 60`). -/
def repeatChar (c : Char) (n : Nat) : String := String.mk (List.replicate n c)

/-- Reversed digit list split in groups of three, for `formatComma`. -/
def chunk3 : List Char → List (List Char)
  | [] => []
  | c :: rest => (c :: rest.take 2) :: chunk3 (rest.drop 2)
termination_by l => l.length
decreasing_by
  simp only [List.length_drop, List.length_cons]
  omega

/-- Python `f"{n:,}"` for an integer: thousands separators. -/
def formatComma (n : Int) : String :=
  (if n < 0 then "-" else "") ++
    String.mk ((List.intercalate [','] (chunk3 (toString n.natAbs).toList.reverse)).reverse)

/-- Python `f"{x:.1f}"`, modelled as half-up rounding of the exact rational
to one decimal place. -/
def format1 (q : Rat) : String :=
  let n : Int := ⌊q * 10 + 1 / 2⌋
  (if n < 0 then "-" else "") ++ toString (n.natAbs / 10) ++ "." ++ toString (n.natAbs % 10)

/-- Python `str(x)` on the filter value, modelled as the rational's
representation. -/
def floatStr (q : Rat) : String := toString q

/-- Python `min(member['Start Location'] for member in group)`. -/
def minStart (group : List Row) : Int :=
  match group.map Row.startLocation with
  | [] => 0
  | x :: xs => xs.foldl min x

/-- Python `max(member['End Location'] for member in group)`. -/
def maxEnd (group : List Row) : Int :=
  match group.map Row.endLocation with
  | [] => 0
  | x :: xs => xs.foldl max x

/-- Python `sum(member['Centimorgans'] for member in group)`. -/
def totalCm (group : List Row) : Rat :=
  group.foldl (fun a m => a + m.centimorgans) 0

/-- Appending a member under its surname in `family_groups`
(a `defaultdict(list)`, whose keys keep insertion order). -/
def addFamily (acc : List (String × List Row)) (surname : String) (member : Row) :
    List (String × List Row) :=
  if acc.any (fun p => p.1 = surname) then
    acc.map (fun p => if p.1 = surname then (p.1, p.2 ++ [member]) else p)
  else acc ++ [(surname, [member])]

/-- The `family_groups` mapping: members grouped by extracted surname, keys in first
appearance order, members in group order. -/
def familyGroups (group : List Row) : List (String × List Row) :=
  group.foldl (fun acc member =>
    addFamily acc (extract_surname (some member.matchName)) member) []

/-- Python `sorted(family_groups.items(), key=lambda x: len(x[1]), reverse=True)`
(stable). -/
def sortedFamilies (fams : List (String × List Row)) : List (String × List Row) :=
  sortBy' (fun a b => decide (b.2.length ≤ a.2.length)) fams

/-- Python `sorted(family_members, key=lambda x: x['Centimorgans'], reverse=True)`
(stable). -/
def sortedByCmDesc (members : List Row) : List Row :=
  sortBy' (fun a b => decide (b.centimorgans ≤ a.centimorgans)) members

/-- Python `sorted(self.triangulation_groups, key=len, reverse=True)` (stable). -/
def sortedGroupsBySize (groups : List (List Row)) : List (List Row) :=
  sortBy' (fun a b => decide (b.length ≤ a.length)) groups

/-- The conditional header line
`if min_cm_filter and min_cm_filter > 0: report.append(f"(Filtered ...)")`
(lines 246-247 / 134-135): present iff the filter is given, non-zero
(Python truthiness) and positive. -/
def filterHeaderLine (minCmFilter : Option Rat) : List String :=
  match minCmFilter with
  | none => []
  | some v =>
    if 0 < v then ["(Filtered to show only matches ≥ " ++ floatStr v ++ " cM)"]
    else []

/-- One member line of the optimized detailed report (lines 296-301):
`f"    • {name} ({cm:.1f} cM, {snps:,} SNPs)"`. -/
def optMemberLine (m : Row) : String :=
  "    • " ++ m.matchName ++ " (" ++ format1 m.centimorgans ++ " cM, " ++
    formatComma m.matchingSNPs ++ " SNPs)"

/-- The member listing of one family (lines 295-304): every member for
groups of at most 20 people, otherwise the top five plus a remainder
line. -/
def optMemberLines (groupLen : Nat) (surname : String) (sortedMembers : List Row) :
    List String :=
  if groupLen ≤ 20 then sortedMembers.map optMemberLine
  else
    (sortedMembers.take 5).map optMemberLine ++
      (if 5 < sortedMembers.length then
        ["    ... and " ++ toString (sortedMembers.length - 5) ++ " more " ++
          surname ++ " family members"]
      else [])

/-- One family block of the optimized report (lines 289-304). -/
def optFamilyBlock (groupLen : Nat) (fam : String × List Row) : List String :=
  ("  " ++ fam.1 ++ " family (" ++ toString fam.2.length ++ " people):") ::
    optMemberLines groupLen fam.1 (sortedByCmDesc fam.2)

/-- The suggestion block (lines 306-316): pure line for a single family,
mixed-family note otherwise; the family names are joined in insertion
order. -/
def optSuggestion (fams : List (String × List Row)) : List String :=
  if fams.length = 1 then
    let familyName := (fams.headD ("", [])).1
    ["",
     "  → SUGGESTION: This appears to be a pure " ++ familyName ++ " ancestral line",
     "    Consider assigning to a " ++ familyName ++ " ancestor"]
  else
    ["",
     "  → SUGGESTION: Mixed families (" ++
       String.intercalate ", " (fams.map Prod.fst) ++ ")",
     "    This may represent a common ancestor shared by these families"]

/-- One ranked group block of the optimized report (lines 260-323). -/
def optGroupBlock (rank : Nat) (group : List Row) : List String :=
  let min_start := minStart group
  let max_end := maxEnd group
  let groupLengthMb : Rat := ((max_end - min_start : Int) : Rat) / 1000000
  let chromosome := (group.headD ⟨"", "", 0, 0, 0, 0⟩).chromosome
  let total_cm := totalCm group
  let avg_cm := total_cm / (group.length : Rat)
  let fams := familyGroups group
  ["RANK #" ++ toString rank ++ ": " ++ toString group.length ++ " PEOPLE SHARE DNA HERE",
   "Location: Chromosome " ++ chromosome ++ ", " ++ formatComma min_start ++ " - " ++
     formatComma max_end ++ " bp (" ++ format1 groupLengthMb ++ " Mb)",
   "Strength: Average " ++ format1 avg_cm ++ " cM per person, Total " ++
     format1 total_cm ++ " cM",
   "",
   "PEOPLE IN THIS GROUP (by family name):"] ++
  ((sortedFamilies fams).map (optFamilyBlock group.length)).flatten ++
  optSuggestion fams ++
  ["",
   "  MANUAL ASSIGNMENT: ________________________________",
   "  (Write the ancestor name you want to assign this group to)",
   "",
   repeatChar '-' 60,
   ""]

/-- The per-group body of the optimized report (`for rank, group in
enumerate(sorted_groups, 1)`). -/
def optReportBody (sorted_groups : List (List Row)) : List String :=
  (sorted_groups.enum.map (fun rg => optGroupBlock (rg.1 + 1) rg.2)).flatten

/-- The lines of `OptimizedTriangulationEngine.create_triangulation_report_by_size`
(lines 242-323) for a non-empty group list, in the order the Python code
appends them. -/
def optReportLines (groups : List (List Row)) (minCmFilter : Option Rat) :
    List String :=
  let sorted_groups := sortedGroupsBySize groups
  ["DNA TRIANGULATION GROUPS - SORTED BY SIZE",
   repeatChar '=' 60,
   "(Largest groups first - these represent your strongest ancestral lines)"] ++
  filterHeaderLine minCmFilter ++
  [""] ++
  ["SUMMARY: Found " ++ toString sorted_groups.length ++ " triangulation groups",
   "Largest group: " ++ toString (sorted_groups.headD []).length ++ " people",
   "Smallest group: " ++ toString (sorted_groups.getLastD []).length ++ " people",
   "",
   repeatChar '=' 60,
   ""] ++
  optReportBody sorted_groups

/-- Everything of `optReportLines` before the conditional filter line
(independent of `min_cm_filter`). -/
def optReportPre : List String :=
  ["DNA TRIANGULATION GROUPS - SORTED BY SIZE",
   repeatChar '=' 60,
   "(Largest groups first - these represent your strongest ancestral lines)"]

/-- Everything of `optReportLines` after the conditional filter line
(independent of `min_cm_filter`). -/
def optReportPost (groups : List (List Row)) : List String :=
  let sorted_groups := sortedGroupsBySize groups
  [""] ++
  ["SUMMARY: Found " ++ toString sorted_groups.length ++ " triangulation groups",
   "Largest group: " ++ toString (sorted_groups.headD []).length ++ " people",
   "Smallest group: " ++ toString (sorted_groups.getLastD []).length ++ " people",
   "",
   repeatChar '=' 60,
   ""] ++
  optReportBody sorted_groups

/-- Method `OptimizedTriangulationEngine.create_triangulation_report_by_size`
(lines 237-325): early return for no groups, else the joined lines. -/
def opt_create_triangulation_report_by_size (groups : List (List Row))
    (minCmFilter : Option Rat) : String :=
  if groups = [] then "No triangulation groups found."
  else String.intercalate "\n" (optReportLines groups minCmFilter)

/-- One member line of the simple report (lines 184-194):
`f"    • {name} ({cm:.1f} cM, {start_mb:.1f}-{end_mb:.1f}Mb)"`. -/
def simpleMemberLine (m : Row) : String :=
  "    • " ++ m.matchName ++ " (" ++ format1 m.centimorgans ++ " cM, " ++
    format1 ((m.startLocation : Rat) / 1000000) ++ "-" ++
    format1 ((m.endLocation : Rat) / 1000000) ++ "Mb)"

/-- The member listing of one family in the simple report (lines 184-197). -/
def simpleMemberLines (groupLen : Nat) (surname : String)
    (sortedMembers : List Row) : List String :=
  if groupLen ≤ 20 then sortedMembers.map simpleMemberLine
  else
    (sortedMembers.take 5).map simpleMemberLine ++
      (if 5 < sortedMembers.length then
        ["    ... and " ++ toString (sortedMembers.length - 5) ++ " more " ++
          surname ++ " family members"]
      else [])

/-- One family block of the simple report (lines 178-197). -/
def simpleFamilyBlock (groupLen : Nat) (fam : String × List Row) : List String :=
  ("  " ++ fam.1 ++ " family (" ++ toString fam.2.length ++ " people):") ::
    simpleMemberLines groupLen fam.1 (sortedByCmDesc fam.2)

/-- One ranked group block of the simple report (lines 149-201): same
statistics lines as the optimized report, no suggestion block. -/
def simpleGroupBlock (rank : Nat) (group : List Row) : List String :=
  let min_start := minStart group
  let max_end := maxEnd group
  let groupLengthMb : Rat := ((max_end - min_start : Int) : Rat) / 1000000
  let chromosome := (group.headD ⟨"", "", 0, 0, 0, 0⟩).chromosome
  let total_cm := totalCm group
  let avg_cm := total_cm / (group.length : Rat)
  let fams := familyGroups group
  ["RANK #" ++ toString rank ++ ": " ++ toString group.length ++ " PEOPLE SHARE DNA HERE",
   "Location: Chromosome " ++ chromosome ++ ", " ++ formatComma min_start ++ " - " ++
     formatComma max_end ++ " bp (" ++ format1 groupLengthMb ++ " Mb)",
   "Strength: Average " ++ format1 avg_cm ++ " cM per person, Total " ++
     format1 total_cm ++ " cM",
   "",
   "PEOPLE IN THIS GROUP (by family name):"] ++
  ((sortedFamilies fams).map (simpleFamilyBlock group.length)).flatten ++
  ["",
   repeatChar '-' 60,
   ""]

/-- The per-group body of the simple report. -/
def simpleReportBody (sorted_groups : List (List Row)) : List String :=
  (sorted_groups.enum.map (fun rg => simpleGroupBlock (rg.1 + 1) rg.2)).flatten

/-- The lines of `SimpleTriangulationEngine.create_triangulation_report_by_size`
(lines 130-201) for a non-empty group list.  The `if sorted_groups:` guard
of lines 142-144 is kept even though it always holds here. -/
def simpleReportLines (groups : List (List Row)) (minCmFilter : Option Rat) :
    List String :=
  let sorted_groups := sortedGroupsBySize groups
  ["SIMPLE DNA TRIANGULATION GROUPS - SORTED BY SIZE",
   repeatChar '=' 60,
   "(Largest groups first - using simple overlap detection)"] ++
  filterHeaderLine minCmFilter ++
  [""] ++
  ["SUMMARY: Found " ++ toString sorted_groups.length ++ " triangulation groups"] ++
  (if !sorted_groups.isEmpty then
    ["Largest group: " ++ toString (sorted_groups.headD []).length ++ " people",
     "Smallest group: " ++ toString (sorted_groups.getLastD []).length ++ " people"]
  else []) ++
  ["",
   repeatChar '=' 60,
   ""] ++
  simpleReportBody sorted_groups

/-- Everything of `simpleReportLines` before the conditional filter line. -/
def simpleReportPre : List String :=
  ["SIMPLE DNA TRIANGULATION GROUPS - SORTED BY SIZE",
   repeatChar '=' 60,
   "(Largest groups first - using simple overlap detection)"]

/-- Everything of `simpleReportLines` after the conditional filter line. -/
def simpleReportPost (groups : List (List Row)) : List String :=
  let sorted_groups := sortedGroupsBySize groups
  [""] ++
  ["SUMMARY: Found " ++ toString sorted_groups.length ++ " triangulation groups"] ++
  (if !sorted_groups.isEmpty then
    ["Largest group: " ++ toString (sorted_groups.headD []).length ++ " people",
     "Smallest group: " ++ toString (sorted_groups.getLastD []).length ++ " people"]
  else []) ++
  ["",
   repeatChar '=' 60,
   ""] ++
  simpleReportBody sorted_groups

/-- Method `SimpleTriangulationEngine.create_triangulation_report_by_size`
(lines 125-203). -/
def simple_create_triangulation_report_by_size (groups : List (List Row))
    (minCmFilter : Option Rat) : String :=
  if groups = [] then "No triangulation groups found."
  else String.intercalate "\n" (simpleReportLines groups minCmFilter)

def rowA : Row := ⟨"A", "1", 0, 10000000, 20, 100⟩
def rowB : Row := ⟨"B", "1", 9000000, 30000000, 15, 100⟩
def rowC : Row := ⟨"C", "1", 25000000, 40000000, 10, 100⟩
def rowC2 : Row := ⟨"C", "1", 29000000, 40000000, 10, 100⟩
def segA : Seg := ⟨0, rowA⟩
def segB : Seg := ⟨1, rowB⟩
def segC : Seg := ⟨2, rowC⟩

/-- A wide segment overlapping both of the next two (C3's star example). -/
def rowWide : Row := ⟨"W", "1", 0, 20000000, 30, 100⟩
def rowLeft : Row := ⟨"L", "1", 0, 2000000, 5, 100⟩
def rowRight : Row := ⟨"R", "1", 18000000, 20000000, 5, 100⟩

/-- Candidate set for the C4 counterexample: `c4r0` is isolated while
`c4r1`, `c4r2`, `c4r3` pairwise overlap. -/
def c4r0 : Row := ⟨"P0", "2", 0, 10, 1, 10⟩
def c4r1 : Row := ⟨"P1", "2", 100, 200, 1, 10⟩
def c4r2 : Row := ⟨"P2", "2", 110, 210, 1, 10⟩
def c4r3 : Row := ⟨"P3", "2", 120, 220, 1, 10⟩
def c4segs : List Row := [c4r0, c4r1, c4r2, c4r3]

/-- Six mutually overlapping candidates (C4 witness input). -/
def c4big : List Row :=
  [⟨"Q0", "3", 0, 100, 1, 10⟩, ⟨"Q1", "3", 0, 100, 1, 10⟩,
   ⟨"Q2", "3", 0, 100, 1, 10⟩, ⟨"Q3", "3", 0, 100, 1, 10⟩,
   ⟨"Q4", "3", 0, 100, 1, 10⟩, ⟨"Q5", "3", 0, 100, 1, 10⟩]

/-- Two overlapping segments on chromosome "2" (C5 inputs). -/
def rowD2 : Row := ⟨"D", "2", 0, 5000000, 12, 100⟩
def rowE2 : Row := ⟨"E", "2", 1000000, 6000000, 11, 100⟩

/-- A two-chromosome data set for the partition-failure analysis (C5). -/
def dataC5 : List Seg := [segA, segB, ⟨2, rowD2⟩, ⟨3, rowE2⟩]

/-- A per-chromosome worker that faults on chromosome "2" and otherwise
returns the optimized pass's groups (C5's injected partition fault). -/
def procFault (p : String × List Seg) : Except String (List (List Seg)) :=
  if p.1 = "2" then .error "boom"
  else .ok (optProcessChromosome p.2 1000000 2)

lemma mem_insertBy' (cond : α → α → Bool) (x a : α) (l : List α) :
    a ∈ insertBy' cond x l ↔ a = x ∨ a ∈ l := by
  induction l with
  | nil => simp [insertBy']
  | cons t ts ih =>
    simp only [insertBy']
    by_cases h : cond x t = true
    · rw [if_pos h]
      simp
    · rw [if_neg h]
      simp [ih]
      tauto

lemma perm_insertBy' (cond : α → α → Bool) (x : α) (l : List α) :
    (insertBy' cond x l).Perm (x :: l) := by
  induction l with
  | nil => simp [insertBy']
  | cons t ts ih =>
    simp only [insertBy']
    by_cases h : cond x t = true
    · rw [if_pos h]
    · rw [if_neg h]
      exact (ih.cons t).trans (List.Perm.swap x t ts)

lemma perm_sortBy' (cond : α → α → Bool) (l : List α) :
    (sortBy' cond l).Perm l := by
  induction l with
  | nil => simp [sortBy']
  | cons x xs ih =>
    exact (perm_insertBy' cond x (sortBy' cond xs)).trans (ih.cons x)

lemma pairwise_insertByStart (x : Seg) (l : List Seg)
    (h : l.Pairwise (fun a b => a.start ≤ b.start)) :
    (insertBy' (fun a b => a.start ≤ b.start) x l).Pairwise
      (fun a b => a.start ≤ b.start) := by
  induction l with
  | nil => simp [insertBy']
  | cons t ts ih =>
    rcases List.pairwise_cons.mp h with ⟨ht, hts⟩
    simp only [insertBy']
    by_cases hc : x.start ≤ t.start
    · rw [if_pos (decide_eq_true hc)]
      refine List.pairwise_cons.mpr ⟨?_, h⟩
      intro b hb
      rcases List.mem_cons.mp hb with rfl | hb
      · exact hc
      · exact le_trans hc (ht b hb)
    · rw [if_neg (by simpa using hc)]
      refine List.pairwise_cons.mpr ⟨?_, ih hts⟩
      intro b hb
      rcases (mem_insertBy' _ x b ts).mp hb with rfl | hb
      · exact le_of_not_le hc
      · exact ht b hb

lemma pairwise_sortByStart (l : List Seg) :
    (sortByStart l).Pairwise (fun a b => a.start ≤ b.start) := by
  induction l with
  | nil => simp [sortByStart, sortBy']
  | cons x xs ih => exact pairwise_insertByStart x _ ih

lemma sortByStart_of_pairwise (l : List Seg)
    (h : l.Pairwise (fun a b => a.start ≤ b.start)) : sortByStart l = l := by
  induction l with
  | nil => rfl
  | cons x xs ih =>
    rcases List.pairwise_cons.mp h with ⟨hx, hxs⟩
    have hxs' : sortByStart xs = xs := ih hxs
    show insertBy' _ x (sortBy' _ xs) = x :: xs
    rw [show sortBy' (fun a b => a.start ≤ b.start) xs = sortByStart xs from rfl, hxs']
    cases xs with
    | nil => rfl
    | cons t ts =>
      have hle : x.start ≤ t.start := hx t (by simp)
      simp only [insertBy']
      rw [if_pos (decide_eq_true hle)]

lemma sortByStart_idem (l : List Seg) :
    sortByStart (sortByStart l) = sortByStart l :=
  sortByStart_of_pairwise _ (pairwise_sortByStart l)

lemma filter_start_insertBy' (x : Seg) (l : List Seg) (v : Int) :
    (insertBy' (fun a b => a.start ≤ b.start) x l).filter (fun s => s.start = v) =
      if x.start = v then x :: l.filter (fun s => s.start = v)
      else l.filter (fun s => s.start = v) := by
  induction l with
  | nil =>
    by_cases hv : x.start = v
    · rw [if_pos hv]
      simp [insertBy', List.filter, hv]
    · rw [if_neg hv]
      simp [insertBy', List.filter, hv]
  | cons t ts ih =>
    simp only [insertBy']
    by_cases hc : x.start ≤ t.start
    · rw [if_pos (decide_eq_true hc)]
      by_cases hv : x.start = v
      · rw [if_pos hv, List.filter_cons_of_pos (by simpa using hv)]
      · rw [if_neg hv, List.filter_cons_of_neg (by simpa using hv)]
    · rw [if_neg (by simpa using hc)]
      have htlt : t.start < x.start := lt_of_not_le hc
      by_cases htv : t.start = v
      · have hxv : ¬ x.start = v := by
          intro h
          rw [h, ← htv] at htlt
          exact lt_irrefl _ htlt
        rw [List.filter_cons_of_pos (by simpa using htv), ih, if_neg hxv, if_neg hxv,
          List.filter_cons_of_pos (by simpa using htv)]
      · rw [List.filter_cons_of_neg (by simpa using htv), ih]
        by_cases hxv : x.start = v
        · rw [if_pos hxv, if_pos hxv, List.filter_cons_of_neg (by simpa using htv)]
        · rw [if_neg hxv, if_neg hxv, List.filter_cons_of_neg (by simpa using htv)]

lemma filter_start_sortByStart (l : List Seg) (v : Int) :
    (sortByStart l).filter (fun s => s.start = v) = l.filter (fun s => s.start = v) := by
  induction l with
  | nil => rfl
  | cons x xs ih =>
    show (insertBy' _ x (sortBy' _ xs)).filter _ = _
    rw [show sortBy' (fun a b => a.start ≤ b.start) xs = sortByStart xs from rfl]
    rw [filter_start_insertBy']
    by_cases hv : x.start = v
    · rw [if_pos hv, List.filter_cons_of_pos (by simpa using hv), ih]
    · rw [if_neg hv, List.filter_cons_of_neg (by simpa using hv), ih]

/-- C2 amended: the optimized engine sorts each chromosome's segments by
start position ascending — stably, so ties keep input order (the
subsequence at any fixed start value is unchanged) — tries seeds in that
order, and its grouping result is fully determined by that sort
(pre-sorting the input does not change it).  The simple engine tries seeds
in raw input order without sorting (see the counterexample). -/
theorem c2_amended (segs : List Seg) :
    (sortByStart segs).Pairwise (fun a b => a.start ≤ b.start) ∧
    (sortByStart segs).Perm segs ∧
    (∀ v : Int, (sortByStart segs).filter (fun s => s.start = v) =
      segs.filter (fun s => s.start = v)) ∧
    (∀ minOverlapBp minGroupSize : Int,
      optProcessChromosome (sortByStart segs) minOverlapBp minGroupSize =
        optProcessChromosome segs minOverlapBp minGroupSize) := by
  refine ⟨pairwise_sortByStart segs, perm_sortBy' _ segs,
    fun v => filter_start_sortByStart segs v, fun T k => ?_⟩
  simp only [optProcessChromosome]
  rw [sortByStart_idem]

/-! ### C8: surname extraction -/

lemma surname_branches (toks : List (List Char)) :
    (if 2 ≤ toks.length then String.mk (toks.getLastD []) else
      match toks with
      | [] => "Unknown"
      | p :: _ => String.mk p)
    = (if 2 ≤ toks.length then String.mk (toks.getLastD []) else
      match toks with
      | [t] => String.mk t
      | _ => "Unknown") := by
  match toks with
  | [] => simp
  | [t] => simp
  | a :: b :: ts => simp

/-- C8: `extract_surname` is exactly the spec's function — strip the
literal substrings `"Mr."`, `"Mrs."`, `"Dr."`, `"Ph.D."`, trim whitespace,
split on whitespace, take the last token if at least two remain, else the
sole token, else `"Unknown"` — and on the spec's examples:
`"Dr. Jane A. Smith" ↦ "Smith"`, `"Madonna" ↦ "Madonna"`, and an empty or
missing name maps to `"Unknown"`. -/
theorem c8_extract_surname :
    (∀ name, extract_surname name = surnameSpec name) ∧
    extract_surname (some "Dr. Jane A. Smith") = "Smith" ∧
    extract_surname (some "Madonna") = "Madonna" ∧
    extract_surname (some "") = "Unknown" ∧
    extract_surname none = "Unknown" := by
  refine ⟨?_, by decide, by decide, by decide, rfl⟩
  intro name
  cases name with
  | none => rfl
  | some s =>
    by_cases hs : s = ""
    · subst hs; decide
    · simp only [extract_surname, surnameSpec, if_neg hs]
      exact surname_branches _

/-! ### C1: the partition property and the optimized engine -/

/-- C1 (divergence witness): on the single-chromosome input
`A = [0, 10M]` (index 0), `B = [9M, 30M]` (index 1), `C = [25M, 40M]`
(index 2), with `min_overlap_bp = 1,000,000` and `min_group_size = 2`, the
optimized per-chromosome pass returns the groups `[A, B]` and `[C, B]`:
after `[A, B]` is emitted and its members marked processed, the seed `C`
collects the already-consumed `B` again (the inner loop at
`optimized_triangulation.py` line 107 checks only `current_group_indices`,
never `processed_indices`), so segment `B` appears in two different
returned groups and the result is not a partition. -/
theorem c1_partition_violated :
    optProcessChromosome [segA, segB, segC] 1000000 2 =
      [[segA, segB], [segC, segB]] ∧
    [segA, segB] ∈ optProcessChromosome [segA, segB, segC] 1000000 2 ∧
    [segC, segB] ∈ optProcessChromosome [segA, segB, segC] 1000000 2 ∧
    ([segA, segB] : List Seg) ≠ [segC, segB] ∧
    segB ∈ ([segA, segB] : List Seg) ∧ segB ∈ ([segC, segB] : List Seg) := by
  refine ⟨by decide, by decide, by decide, by decide, by decide, by decide⟩

/-! ### C6: configuration validation -/

/-- C6 counterexample: a non-positive overlap threshold and a group size
below 2 are not rejected anywhere — the full optimized entry point accepts
`min_overlap_bp = -5` and happily groups two segments that do not overlap
at all, and the simple engine accepts `min_group_size = 1` and emits a
singleton group.  No configuration error is reported before processing. -/
theorem c6_counterexample :
    detect_triangulation_groups_optimized 4 none [segA, segC] (-5) 2 =
      [[segA, segC]] ∧
    overlapBp rowA rowC = 0 ∧
    simpleFindGroups [rowA] 1000000 1 = [[rowA]] := by
  refine ⟨by decide, by decide, by decide⟩

/-! ### C7: determinism and worker-count independence -/

/-- C7: the optimized detection is a pure function of the data and the
configuration; the reported CPU count and the `max_workers` knob (the pool
size of `Pool(processes=max_workers)`) never influence the returned groups,
so two runs on identical input and configuration return identical group
lists regardless of how many workers execute. -/
theorem c7_worker_count_independent :
    ∀ (cpuCount₁ cpuCount₂ : Nat) (maxWorkers₁ maxWorkers₂ : Option Nat)
      (data : List Seg) (minOverlapBp minGroupSize : Int),
      detect_triangulation_groups_optimized cpuCount₁ maxWorkers₁ data
          minOverlapBp minGroupSize =
        detect_triangulation_groups_optimized cpuCount₂ maxWorkers₂ data
          minOverlapBp minGroupSize := by
  intro _ _ _ _ _ _ _
  rfl

/-- C2 counterexample: on chromosome input `[B, A, C]` with `A = [0, 10M]`,
`B = [9M, 30M]`, `C = [29M, 40M]`, threshold 1,000,000 and minimum size 2,
the simple engine (which never sorts) seeds with `B` first and returns the
single group `[B, A, C]`; on the start-sorted input it returns `[A, B]`.
Its seeds are therefore tried in raw input order, not in sorted order, and
its grouping result is not determined by the start-sort. -/
theorem c2_counterexample :
    simpleFindGroups [rowB, rowA, rowC2] 1000000 2 = [[rowB, rowA, rowC2]] ∧
    simpleFindGroups
      (sortBy' (fun a b : Row => a.startLocation ≤ b.startLocation)
        [rowB, rowA, rowC2]) 1000000 2 = [[rowA, rowB]] ∧
    simpleFindGroups [rowB, rowA, rowC2] 1000000 2 ≠
      simpleFindGroups
        (sortBy' (fun a b : Row => a.startLocation ≤ b.startLocation)
          [rowB, rowA, rowC2]) 1000000 2 := by
  refine ⟨by decide, by decide, by decide⟩

/-! ### C10: the cM filter touches only its header line -/

/-- C10: for any stored group list, `min_cm_filter` influences only the
presence and content of the single
`"(Filtered to show only matches ≥ ... cM)"` line: both report functions
factor as a fixed prefix, the optional filter line (a function of the
filter alone), and a suffix depending only on the groups — so two calls
with different filters agree on every other line, including all group,
ranking, statistics and member lines; with no stored groups both calls
return the identical fixed message. -/
theorem c10_filter_affects_only_header :
    (∀ (groups : List (List Row)) (f : Option Rat),
      optReportLines groups f =
        optReportPre ++ filterHeaderLine f ++ optReportPost groups) ∧
    (∀ (groups : List (List Row)) (f : Option Rat),
      simpleReportLines groups f =
        simpleReportPre ++ filterHeaderLine f ++ simpleReportPost groups) ∧
    (∀ f₁ f₂ : Option Rat,
      opt_create_triangulation_report_by_size [] f₁ =
        opt_create_triangulation_report_by_size [] f₂) ∧
    (∀ f₁ f₂ : Option Rat,
      simple_create_triangulation_report_by_size [] f₁ =
        simple_create_triangulation_report_by_size [] f₂) := by
  refine ⟨?_, ?_, ?_, ?_⟩
  · intro groups f
    simp [optReportLines, optReportPre, optReportPost]
  · intro groups f
    simp [simpleReportLines, simpleReportPre, simpleReportPost]
  · intro f₁ f₂
    rfl
  · intro f₁ f₂
    rfl

/-! ### Fold invariants for the optimized engine's star and outer loop -/

lemma optStarStep_eq (seed : Seg) (i : Nat) (T : Int) (g : List Seg)
    (gi : List Nat) (j : Nat) (s2 : Seg) :
    optStarStep seed i T (g, gi) (j, s2) =
      if j = i ∨ s2.index ∈ gi then (g, gi)
      else if T ≤ max 0 (min seed.stop s2.stop - max seed.start s2.start) then
        (g ++ [s2], gi ++ [s2.index])
      else (g, gi) := rfl

lemma optStar_fold_inv (seed : Seg) (i : Nat) (T : Int) :
    ∀ (L : List (Nat × Seg)) (g : List Seg) (gi : List Nat),
      gi = g.map Seg.index → gi.Nodup →
      (∃ r, g = seed :: r ∧ ∀ m ∈ r, T ≤ overlapBp seed.data m.data) →
      (L.foldl (optStarStep seed i T) (g, gi)).2 =
          (L.foldl (optStarStep seed i T) (g, gi)).1.map Seg.index ∧
        (L.foldl (optStarStep seed i T) (g, gi)).2.Nodup ∧
        ∃ r, (L.foldl (optStarStep seed i T) (g, gi)).1 = seed :: r ∧
          ∀ m ∈ r, T ≤ overlapBp seed.data m.data := by
  intro L
  induction L with
  | nil =>
    intro g gi h1 h2 h3
    exact ⟨h1, h1 ▸ h2, h3⟩
  | cons p L ih =>
    intro g gi h1 h2 h3
    obtain ⟨j, s2⟩ := p
    simp only [List.foldl_cons, optStarStep_eq]
    by_cases hskip : j = i ∨ s2.index ∈ gi
    · rw [if_pos hskip]
      exact ih g gi h1 h2 h3
    · rw [if_neg hskip]
      by_cases hov : T ≤ max 0 (min seed.stop s2.stop - max seed.start s2.start)
      · rw [if_pos hov]
        have hnotmem : s2.index ∉ gi := fun hmem => hskip (Or.inr hmem)
        refine ih (g ++ [s2]) (gi ++ [s2.index]) ?_ ?_ ?_
        · simp [h1]
        · simp only [List.nodup_append, List.nodup_cons]
          exact ⟨h2, by simp, by simpa using hnotmem⟩
        · obtain ⟨r, hg, hr⟩ := h3
          refine ⟨r ++ [s2], by simp [hg], ?_⟩
          intro m hm
          rcases List.mem_append.mp hm with hm | hm
          · exact hr m hm
          · rcases List.mem_singleton.mp hm with rfl
            simpa [overlapBp, Seg.stop, Seg.start] using hov
      · rw [if_neg hov]
        exact ih g gi h1 h2 h3

lemma optStar_spec (segments : List Seg) (i : Nat) (seed : Seg) (T : Int) :
    ∃ r, optStar segments i seed T = seed :: r ∧
      (∀ m ∈ r, T ≤ overlapBp seed.data m.data) ∧
      ((seed :: r).map Seg.index).Nodup := by
  have h := optStar_fold_inv seed i T segments.enum [seed] [seed.index]
    (by simp) (by simp) ⟨[], rfl, by simp⟩
  obtain ⟨h1, h2, r, hr, hmem⟩ := h
  refine ⟨r, hr, hmem, ?_⟩
  rw [← hr, ← h1]
  exact h2

lemma optOuterStep_eq (segments : List Seg) (T k : Int)
    (groups : List (List Seg)) (processed : List Nat) (i : Nat) (s1 : Seg) :
    optOuterStep segments T k (groups, processed) (i, s1) =
      if s1.index ∈ processed then (groups, processed)
      else if k ≤ ((optStar segments i s1 T).length : Int) then
        (groups ++ [optStar segments i s1 T],
          processed ++ (optStar segments i s1 T).map Seg.index)
      else (groups, processed) := rfl

lemma optOuter_fold_groups (segments : List Seg) (T k : Int) :
    ∀ (L : List (Nat × Seg)) (acc : List (List Seg) × List Nat),
      (∀ g ∈ acc.1, ∃ i s1, g = optStar segments i s1 T ∧ k ≤ (g.length : Int)) →
      ∀ g ∈ (L.foldl (optOuterStep segments T k) acc).1,
        ∃ i s1, g = optStar segments i s1 T ∧ k ≤ (g.length : Int) := by
  intro L
  induction L with
  | nil => intro acc hacc; exact hacc
  | cons p L ih =>
    intro acc hacc
    obtain ⟨i, s1⟩ := p
    obtain ⟨groups, processed⟩ := acc
    simp only [List.foldl_cons, optOuterStep_eq]
    by_cases hskip : s1.index ∈ processed
    · rw [if_pos hskip]
      exact ih _ hacc
    · rw [if_neg hskip]
      by_cases hlen : k ≤ ((optStar segments i s1 T).length : Int)
      · rw [if_pos hlen]
        refine ih _ ?_
        intro g hg
        rcases List.mem_append.mp hg with hg | hg
        · exact hacc g hg
        · rcases List.mem_singleton.mp hg with rfl
          exact ⟨i, s1, rfl, hlen⟩
      · rw [if_neg hlen]
        exact ih _ hacc

lemma optProcess_groups (chrSegs : List Seg) (T k : Int) :
    ∀ g ∈ optProcessChromosome chrSegs T k,
      ∃ i s1, g = optStar (sortByStart chrSegs) i s1 T ∧ k ≤ (g.length : Int) := by
  intro g hg
  exact optOuter_fold_groups (sortByStart chrSegs) T k _ ([], []) (by simp) g hg

lemma overlapBp_le_self (a b : Row) : overlapBp a b ≤ overlapBp a a := by
  have h1 : min a.endLocation b.endLocation ≤ a.endLocation := min_le_left _ _
  have h2 : a.startLocation ≤ max a.startLocation b.startLocation := le_max_left _ _
  have h3 : min a.endLocation b.endLocation - max a.startLocation b.startLocation ≤
      a.endLocation - a.startLocation := by omega
  have h4 : min a.endLocation a.endLocation - max a.startLocation a.startLocation =
      a.endLocation - a.startLocation := by simp
  unfold overlapBp
  rw [h4]
  exact max_le_max (le_refl 0) h3

/-! ### Fold invariants for the simple engine and the painter engine -/

lemma simpleStarStep_eq (seed : Row) (i : Nat) (used : List Nat) (T : Int)
    (g : List (Nat × Row)) (gi : List Nat) (j : Nat) (s2 : Row) :
    simpleStarStep seed i used T (g, gi) (j, s2) =
      if j = i ∨ j ∈ used then (g, gi)
      else if T ≤ min seed.endLocation s2.endLocation -
          max seed.startLocation s2.startLocation then
        (g ++ [(j, s2)], gi ++ [j])
      else (g, gi) := rfl

lemma simpleStar_fold_members (seed : Row) (i : Nat) (used : List Nat) (T : Int) :
    ∀ (L : List (Nat × Row)) (g : List (Nat × Row)) (gi : List Nat),
      (∃ r, g = (i, seed) :: r ∧ ∀ m ∈ r, T ≤ rawOverlap seed m.2) →
      ∃ r, (L.foldl (simpleStarStep seed i used T) (g, gi)).1 = (i, seed) :: r ∧
        ∀ m ∈ r, T ≤ rawOverlap seed m.2 := by
  intro L
  induction L with
  | nil => intro g gi h; exact h
  | cons p L ih =>
    intro g gi h
    obtain ⟨j, s2⟩ := p
    simp only [List.foldl_cons, simpleStarStep_eq]
    by_cases hskip : j = i ∨ j ∈ used
    · rw [if_pos hskip]; exact ih g gi h
    · rw [if_neg hskip]
      by_cases hov : T ≤ min seed.endLocation s2.endLocation -
          max seed.startLocation s2.startLocation
      · rw [if_pos hov]
        obtain ⟨r, hg, hr⟩ := h
        refine ih _ _ ⟨r ++ [(j, s2)], by simp [hg], ?_⟩
        intro m hm
        rcases List.mem_append.mp hm with hm | hm
        · exact hr m hm
        · rcases List.mem_singleton.mp hm with rfl
          exact hov
      · rw [if_neg hov]; exact ih g gi h

lemma simpleStar_fold_nodup (seed : Row) (i : Nat) (used : List Nat) (T : Int) :
    ∀ (L : List (Nat × Row)) (g : List (Nat × Row)) (gi : List Nat),
      (L.map Prod.fst).Nodup →
      (g.map Prod.fst).Nodup →
      (∀ p ∈ L, p.1 ∈ g.map Prod.fst → p.1 = i) →
      ((L.foldl (simpleStarStep seed i used T) (g, gi)).1.map Prod.fst).Nodup := by
  intro L
  induction L with
  | nil => intro g gi _ hg _; exact hg
  | cons p L ih =>
    intro g gi hL hg hfresh
    obtain ⟨j, s2⟩ := p
    have hLtail : (L.map Prod.fst).Nodup := (List.nodup_cons.mp (by simpa using hL)).2
    have hjL : j ∉ L.map Prod.fst := (List.nodup_cons.mp (by simpa using hL)).1
    simp only [List.foldl_cons, simpleStarStep_eq]
    by_cases hskip : j = i ∨ j ∈ used
    · rw [if_pos hskip]
      exact ih g gi hLtail hg (fun p hp => hfresh p (List.mem_cons_of_mem _ hp))
    · rw [if_neg hskip]
      have hji : ¬ j = i := fun h => hskip (Or.inl h)
      by_cases hov : T ≤ min seed.endLocation s2.endLocation -
          max seed.startLocation s2.startLocation
      · rw [if_pos hov]
        have hjg : j ∉ g.map Prod.fst := by
          intro hmem
          exact hji (hfresh (j, s2) (by simp) hmem)
        refine ih _ _ hLtail ?_ ?_
        · simp only [List.map_append, List.nodup_append, List.nodup_cons]
          exact ⟨hg, by simp, by simpa using hjg⟩
        · intro p hp hmem
          rw [List.map_append] at hmem
          rcases List.mem_append.mp hmem with hmem | hmem
          · exact hfresh p (List.mem_cons_of_mem _ hp) hmem
          · exfalso
            apply hjL
            have : p.1 = j := by simpa using hmem
            rw [← this]
            exact List.mem_map_of_mem Prod.fst hp
      · rw [if_neg hov]
        exact ih g gi hLtail hg (fun p hp => hfresh p (List.mem_cons_of_mem _ hp))

lemma simpleOuterStep_eq (segments : List Row) (T k : Int)
    (groups : List (List (Nat × Row))) (used : List Nat) (i : Nat) (s1 : Row) :
    simpleOuterStep segments T k (groups, used) (i, s1) =
      if i ∈ used then (groups, used)
      else if k ≤ (((simpleStar segments i s1 used T).1).length : Int) then
        (groups ++ [(simpleStar segments i s1 used T).1],
          used ++ (simpleStar segments i s1 used T).2)
      else (groups, used) := rfl

lemma simpleOuter_fold_groups (segments : List Row) (T k : Int) :
    ∀ (L : List (Nat × Row)) (acc : List (List (Nat × Row)) × List Nat),
      (∀ g ∈ acc.1, ∃ i s1 used, g = (simpleStar segments i s1 used T).1 ∧
        k ≤ (g.length : Int)) →
      ∀ g ∈ (L.foldl (simpleOuterStep segments T k) acc).1,
        ∃ i s1 used, g = (simpleStar segments i s1 used T).1 ∧
          k ≤ (g.length : Int) := by
  intro L
  induction L with
  | nil => intro acc hacc; exact hacc
  | cons p L ih =>
    intro acc hacc
    obtain ⟨i, s1⟩ := p
    obtain ⟨groups, used⟩ := acc
    simp only [List.foldl_cons, simpleOuterStep_eq]
    by_cases hskip : i ∈ used
    · rw [if_pos hskip]; exact ih _ hacc
    · rw [if_neg hskip]
      by_cases hlen : k ≤ (((simpleStar segments i s1 used T).1).length : Int)
      · rw [if_pos hlen]
        refine ih _ ?_
        intro g hg
        rcases List.mem_append.mp hg with hg | hg
        · exact hacc g hg
        · rcases List.mem_singleton.mp hg with rfl
          exact ⟨i, s1, used, rfl, hlen⟩
      · rw [if_neg hlen]; exact ih _ hacc

lemma simpleFindTagged_groups (segments : List Row) (T k : Int) :
    ∀ g ∈ simpleFindGroupsTagged segments T k,
      ∃ i s1 used, g = (simpleStar segments i s1 used T).1 ∧
        k ≤ (g.length : Int) := by
  intro g hg
  exact simpleOuter_fold_groups segments T k _ ([], []) (by simp) g hg

lemma painterStar_fold_nodup (row1 : Seg) (T : Int) :
    ∀ (L : List Seg) (g : List Seg),
      (g.map Seg.index).Nodup →
      ((L.foldl (painterStarStep row1 T) g).map Seg.index).Nodup := by
  intro L
  induction L with
  | nil => intro g hg; exact hg
  | cons s L ih =>
    intro g hg
    simp only [List.foldl_cons, painterStarStep]
    by_cases hij : row1.index ≥ s.index
    · rw [if_pos hij]; exact ih g hg
    · rw [if_neg hij]
      by_cases hov : T ≤ max 0 (min row1.stop s.stop - max row1.start s.start)
      · rw [if_pos hov]
        by_cases hdup : g.any (fun member => member.index = s.index) = true
        · rw [if_pos hdup]; exact ih g hg
        · rw [if_neg hdup]
          refine ih _ ?_
          have hnot : s.index ∉ g.map Seg.index := by
            intro hmem
            rcases List.mem_map.mp hmem with ⟨m, hm, hms⟩
            have := List.any_eq_false.mp (Bool.not_eq_true _ ▸ hdup) m hm
            simp [hms] at this
          simp only [List.map_append, List.nodup_append, List.nodup_cons]
          exact ⟨hg, by simp, by simpa using hnot⟩
      · rw [if_neg hov]; exact ih g hg

lemma painterOuter_fold_groups (chrData : List Seg) (T k : Int) :
    ∀ (L : List Seg) (groups : List (List Seg)),
      (∀ g ∈ groups, ∃ r1, g = painterStar chrData r1 T) →
      ∀ g ∈ L.foldl (painterOuterStep chrData T k) groups,
        ∃ r1, g = painterStar chrData r1 T := by
  intro L
  induction L with
  | nil => intro groups hacc; exact hacc
  | cons s L ih =>
    intro groups hacc
    simp only [List.foldl_cons, painterOuterStep]
    by_cases hlen : k ≤ ((painterStar chrData s T).length : Int)
    · rw [if_pos hlen]
      by_cases hdup : groups.any (fun g => sameNameSet (painterStar chrData s T) g) = true
      · rw [if_pos hdup]; exact ih _ hacc
      · rw [if_neg hdup]
        refine ih _ ?_
        intro g hg
        rcases List.mem_append.mp hg with hg | hg
        · exact hacc g hg
        · rcases List.mem_singleton.mp hg with rfl
          exact ⟨s, rfl⟩
    · rw [if_neg hlen]; exact ih _ hacc

lemma rawOverlap_le_overlapBp (a b : Row) : rawOverlap a b ≤ overlapBp a b :=
  le_max_right _ _

/-! ### C3: threshold correctness of star-built groups -/

/-- C3: with a positive threshold and `min_group_size ≥ 2`, every group
returned by the optimized or the simple engine is a star: its first member
is the seed and every member (the seed included) overlaps the seed by at
least `min_overlap_bp` under
`overlap_bp(A,B) = max(0, min(A.end,B.end) − max(A.start,B.start))`.
Membership requires overlap with the seed only — the last conjunct exhibits
a returned group two of whose members overlap each other by less than the
threshold. -/
theorem c3_threshold_correctness :
    (∀ (chrSegs : List Seg) (minOverlapBp minGroupSize : Int),
      0 < minOverlapBp → 2 ≤ minGroupSize →
      ∀ g ∈ optProcessChromosome chrSegs minOverlapBp minGroupSize,
        ∃ seed r, g = seed :: r ∧
          ∀ m ∈ g, minOverlapBp ≤ overlapBp seed.data m.data) ∧
    (∀ (segments : List Row) (minOverlapBp minGroupSize : Int),
      0 < minOverlapBp → 2 ≤ minGroupSize →
      ∀ g ∈ simpleFindGroups segments minOverlapBp minGroupSize,
        ∃ seed r, g = seed :: r ∧ ∀ m ∈ g, minOverlapBp ≤ overlapBp seed m) ∧
    (∃ g ∈ optProcessChromosome [⟨0, rowWide⟩, ⟨1, rowLeft⟩, ⟨2, rowRight⟩]
        1000000 2,
      ∃ m1 ∈ g, ∃ m2 ∈ g, overlapBp m1.data m2.data < 1000000) := by
  refine ⟨?_, ?_, by decide⟩
  · intro chrSegs T k hT hk g hg
    obtain ⟨i, s1, rfl, hlen⟩ := optProcess_groups chrSegs T k g hg
    obtain ⟨r, hstar, hmem, _⟩ := optStar_spec (sortByStart chrSegs) i s1 T
    refine ⟨s1, r, hstar, ?_⟩
    intro m hm
    rw [hstar] at hm
    rcases List.mem_cons.mp hm with rfl | hm
    · have hglen : 2 ≤ (optStar (sortByStart chrSegs) i m T).length := by
        exact_mod_cast le_trans hk hlen
      rw [hstar] at hglen
      have hrne : r ≠ [] := by
        intro h
        rw [h] at hglen
        simp at hglen
      obtain ⟨m0, hm0⟩ := List.exists_mem_of_ne_nil r hrne
      exact le_trans (hmem m0 hm0) (overlapBp_le_self m.data m0.data)
    · exact hmem m hm
  · intro segments T k hT hk g hg
    rcases List.mem_map.mp hg with ⟨gt, hgt, rfl⟩
    obtain ⟨i, s1, used, rfl, hlen⟩ := simpleFindTagged_groups segments T k gt hgt
    obtain ⟨r, hstar, hmem⟩ := simpleStar_fold_members s1 i used T segments.enum
      [(i, s1)] [i] ⟨[], rfl, by simp⟩
    have hstar' : (simpleStar segments i s1 used T).1 = (i, s1) :: r := hstar
    refine ⟨s1, r.map Prod.snd, by rw [hstar']; simp, ?_⟩
    intro m hm
    rw [hstar'] at hm
    simp only [List.map_cons, List.mem_cons] at hm
    rcases hm with rfl | hm
    · have hglen : 2 ≤ ((simpleStar segments i m used T).1).length := by
        exact_mod_cast le_trans hk hlen
      rw [hstar'] at hglen
      have hrne : r ≠ [] := by
        intro h
        rw [h] at hglen
        simp at hglen
      obtain ⟨m0, hm0⟩ := List.exists_mem_of_ne_nil r hrne
      have h1 : T ≤ rawOverlap m m0.2 := hmem m0 hm0
      exact le_trans (le_trans h1 (rawOverlap_le_overlapBp m m0.2))
        (overlapBp_le_self m m0.2)
    · rcases List.mem_map.mp hm with ⟨m0, hm0, rfl⟩
      exact le_trans (hmem m0 hm0) (rawOverlap_le_overlapBp s1 m0.2)

/-- Witness for C3 at a concrete input: the hypotheses hold for
`min_overlap_bp = 1,000,000`, `min_group_size = 2` and the group
`[A, B]` returned on `[A, B, C]`, and the theorem yields the star
property for it. -/
theorem c3_witness :
    (0 : Int) < 1000000 ∧ (2 : Int) ≤ 2 ∧
    [segA, segB] ∈ optProcessChromosome [segA, segB, segC] 1000000 2 ∧
    (∃ seed r, ([segA, segB] : List Seg) = seed :: r ∧
      ∀ m ∈ ([segA, segB] : List Seg), 1000000 ≤ overlapBp seed.data m.data) :=
  ⟨by decide, by decide, by decide,
    c3_threshold_correctness.1 [segA, segB, segC] 1000000 2 (by decide) (by decide)
      [segA, segB] (by decide)⟩

/-! ### C9: no duplicate members inside one group -/

/-- C9: in each of the three engine variants, every emitted group lists
each segment identity at most once (the pandas index label for the
optimized and painter engines, the list position for the simple engine) —
the group-collection loops never add the same identity twice. -/
theorem c9_no_duplicate_members :
    (∀ (chrSegs : List Seg) (minOverlapBp minGroupSize : Int),
      ∀ g ∈ optProcessChromosome chrSegs minOverlapBp minGroupSize,
        (g.map Seg.index).Nodup) ∧
    (∀ (segments : List Row) (minOverlapBp minGroupSize : Int),
      ∀ g ∈ simpleFindGroupsTagged segments minOverlapBp minGroupSize,
        (g.map Prod.fst).Nodup) ∧
    (∀ (chrSegs : List Seg) (minOverlapBp minGroupSize : Int),
      ∀ g ∈ painterProcessChromosome chrSegs minOverlapBp minGroupSize,
        (g.map Seg.index).Nodup) := by
  refine ⟨?_, ?_, ?_⟩
  · intro chrSegs T k g hg
    obtain ⟨i, s1, rfl, -⟩ := optProcess_groups chrSegs T k g hg
    obtain ⟨r, hstar, -, hnd⟩ := optStar_spec (sortByStart chrSegs) i s1 T
    rw [hstar]
    exact hnd
  · intro segments T k g hg
    obtain ⟨i, s1, used, rfl, -⟩ := simpleFindTagged_groups segments T k g hg
    refine simpleStar_fold_nodup s1 i used T segments.enum [(i, s1)] [i] ?_ (by simp) ?_
    · rw [List.enum_map_fst]
      exact List.nodup_range _
    · intro p _ hmem
      simpa using hmem
  · intro chrSegs T k g hg
    obtain ⟨r1, rfl⟩ := painterOuter_fold_groups
      (sortBy' (fun a b => a.start ≤ b.start) chrSegs) T k
      (sortBy' (fun a b => a.start ≤ b.start) chrSegs) [] (by simp) g hg
    exact painterStar_fold_nodup r1 T _ [r1] (by simp)

/-- Witness for C9 at a concrete input: the group `[A, B]` returned by the
optimized pass on `[A, B, C]` has pairwise distinct member indices. -/
theorem c9_witness :
    [segA, segB] ∈ optProcessChromosome [segA, segB, segC] 1000000 2 ∧
    (([segA, segB].map Seg.index).Nodup) :=
  ⟨by decide,
    c9_no_duplicate_members.1 [segA, segB, segC] 1000000 2 [segA, segB] (by decide)⟩

/-! ### C6: what actually happens with an invalid configuration -/

lemma enumFrom_fst_ge : ∀ (l : List α) (n : Nat) (p : Nat × α),
    p ∈ List.enumFrom n l → n ≤ p.1 := by
  intro l
  induction l with
  | nil => intro n p h; simp at h
  | cons a l ih =>
    intro n p h
    rcases List.mem_cons.mp h with rfl | h
    · exact le_refl n
    · exact le_trans (Nat.le_succ n) (ih (n + 1) p h)

lemma enumFrom_snd_mem : ∀ (l : List α) (n : Nat) (p : Nat × α),
    p ∈ List.enumFrom n l → p.2 ∈ l := by
  intro l
  induction l with
  | nil => intro n p h; simp at h
  | cons a l ih =>
    intro n p h
    rcases List.mem_cons.mp h with rfl | h
    · simp
    · exact List.mem_cons_of_mem a (ih (n + 1) p h)

lemma enumFrom_map_snd' : ∀ (l : List α) (n : Nat),
    (List.enumFrom n l).map Prod.snd = l := by
  intro l
  induction l with
  | nil => intro n; rfl
  | cons a l ih => intro n; simp [List.enumFrom, ih]

lemma optStar_all_fold (seed : Seg) (T : Int) (hT : T ≤ 0) :
    ∀ (L : List (Nat × Seg)) (g : List Seg),
      ((g ++ L.map Prod.snd).map Seg.index).Nodup →
      (∀ p ∈ L, p.1 ≠ 0) →
      L.foldl (optStarStep seed 0 T) (g, g.map Seg.index) =
        (g ++ L.map Prod.snd, (g ++ L.map Prod.snd).map Seg.index) := by
  intro L
  induction L with
  | nil => intro g _ _; simp
  | cons p L ih =>
    intro g hnd hfresh
    obtain ⟨j, s2⟩ := p
    have hj0 : ¬ j = 0 := hfresh (j, s2) (by simp)
    have hidx : s2.index ∉ g.map Seg.index := by
      intro hmem
      have := (List.nodup_append.mp (by simpa using hnd)).2.2
      exact this hmem (by simp)
    simp only [List.foldl_cons, optStarStep_eq]
    rw [if_neg (by tauto)]
    rw [if_pos (le_trans hT (le_max_left 0 _))]
    have hg' : g.map Seg.index ++ [s2.index] = (g ++ [s2]).map Seg.index := by simp
    rw [hg']
    have := ih (g ++ [s2]) (by simpa [List.append_assoc] using hnd)
      (fun p hp => hfresh p (List.mem_cons_of_mem _ hp))
    rw [this]
    simp

lemma optStar_all (segments : List Seg) (T : Int) (hT : T ≤ 0) (s0 : Seg)
    (rest : List Seg) (hseg : segments = s0 :: rest)
    (hnd : (segments.map Seg.index).Nodup) :
    optStar segments 0 s0 T = segments := by
  subst hseg
  show ((((0, s0) :: List.enumFrom 1 rest).foldl (optStarStep s0 0 T)
    ([s0], [s0.index])).1 = s0 :: rest)
  simp only [List.foldl_cons, optStarStep_eq]
  rw [if_pos (Or.inl trivial)]
  have h0 : ([s0.index] : List Nat) = [s0].map Seg.index := by simp
  rw [h0]
  rw [optStar_all_fold s0 T hT (List.enumFrom 1 rest) [s0]
    (by rw [enumFrom_map_snd']; simpa using hnd)
    (fun p hp => by
      have := enumFrom_fst_ge rest 1 p hp
      omega)]
  rw [enumFrom_map_snd']
  rfl

lemma optOuter_const (segments : List Seg) (T k : Int) :
    ∀ (L : List (Nat × Seg)) (acc : List (List Seg) × List Nat),
      (∀ p ∈ L, (p.2).index ∈ acc.2) →
      L.foldl (optOuterStep segments T k) acc = acc := by
  intro L
  induction L with
  | nil => intro acc _; rfl
  | cons p L ih =>
    intro acc hmem
    obtain ⟨i, s1⟩ := p
    obtain ⟨groups, processed⟩ := acc
    simp only [List.foldl_cons, optOuterStep_eq]
    rw [if_pos (hmem (i, s1) (by simp))]
    exact ih _ (fun q hq => hmem q (List.mem_cons_of_mem _ hq))

/-- C6 amended: no configuration validation exists anywhere on the path —
an invalid configuration is passed straight into the grouping algorithm,
which runs normally.  In particular, with `min_overlap_bp ≤ 0` every pair
of segments "overlaps" (the clamped overlap is `≥ 0 ≥ min_overlap_bp`), so
the optimized per-chromosome pass returns the chromosome's entire segment
list as one giant group whenever it has at least `min_group_size` segments
(distinct pandas index labels assumed, as pandas guarantees). -/
theorem c6_amended (segs : List Seg) (minOverlapBp minGroupSize : Int)
    (hT : minOverlapBp ≤ 0) (hne : 1 ≤ segs.length)
    (hk : minGroupSize ≤ (segs.length : Int))
    (hnd : (segs.map Seg.index).Nodup) :
    optProcessChromosome segs minOverlapBp minGroupSize = [sortByStart segs] := by
  have hperm : (sortByStart segs).Perm segs := perm_sortBy' _ segs
  have hndS : ((sortByStart segs).map Seg.index).Nodup :=
    ((hperm.map Seg.index).nodup_iff).mpr hnd
  have hlenS : (sortByStart segs).length = segs.length := hperm.length_eq
  obtain ⟨s0, rest, hseg⟩ : ∃ s0 rest, sortByStart segs = s0 :: rest := by
    cases h : sortByStart segs with
    | nil =>
      rw [h] at hlenS
      simp at hlenS
      omega
    | cons a l => exact ⟨a, l, rfl⟩
  show ((sortByStart segs).enum.foldl
    (optOuterStep (sortByStart segs) minOverlapBp minGroupSize) ([], [])).1 =
      [sortByStart segs]
  rw [hseg] at hndS hlenS ⊢
  have henum : (s0 :: rest).enum = (0, s0) :: List.enumFrom 1 rest := rfl
  rw [henum]
  simp only [List.foldl_cons, optOuterStep_eq]
  rw [if_neg (by simp)]
  rw [optStar_all (s0 :: rest) minOverlapBp hT s0 rest rfl hndS]
  rw [if_pos (by rw [hlenS]; exact hk)]
  rw [optOuter_const (s0 :: rest) minOverlapBp minGroupSize
    (List.enumFrom 1 rest) ([] ++ [s0 :: rest], [] ++ (s0 :: rest).map Seg.index)
    ?_]
  · rfl
  · intro p hp
    have hmem : p.2 ∈ rest := enumFrom_snd_mem rest 1 p hp
    have hmem2 : p.2 ∈ s0 :: rest := List.mem_cons_of_mem s0 hmem
    simpa using List.mem_map_of_mem Seg.index hmem2

/-- Witness for C6's amended statement: on two disjoint segments with
threshold 0 and minimum size 2, the hypotheses hold and the whole
chromosome comes back as one group. -/
theorem c6_witness :
    (0 : Int) ≤ 0 ∧ 1 ≤ ([segA, segC] : List Seg).length ∧
    (2 : Int) ≤ (([segA, segC] : List Seg).length : Int) ∧
    ((([segA, segC] : List Seg).map Seg.index).Nodup) ∧
    optProcessChromosome [segA, segC] 0 2 = [sortByStart [segA, segC]] :=
  ⟨by decide, by decide, by decide, by decide,
    c6_amended [segA, segC] 0 2 (by decide) (by decide) (by decide) (by decide)⟩

/-! ### C5: a partition fault aborts the whole run -/

lemma poolMapE_error (f : α → Except ε β) :
    ∀ (xs : List α) (x : α) (e : ε), x ∈ xs → f x = .error e →
      ∃ e2, poolMapE f xs = .error e2 := by
  intro xs
  induction xs with
  | nil => intro x e h; simp at h
  | cons y ys ih =>
    intro x e hmem herr
    rcases List.mem_cons.mp hmem with rfl | hmem
    · exact ⟨e, by simp [poolMapE, herr]⟩
    · cases hy : f y with
      | error e3 => exact ⟨e3, by simp [poolMapE, hy]⟩
      | ok val =>
        obtain ⟨e2, h2⟩ := ih x e hmem herr
        exact ⟨e2, by simp [poolMapE, hy, h2]⟩

/-- C5 amended: a fault in any single chromosome partition aborts the
entire run — `pool.map` re-raises the exception, so the run yields an
error carrying no groups at all, rather than the other chromosomes'
results plus a report of which chromosome failed. -/
theorem c5_amended (data : List Seg) (minGroupSize : Int)
    (proc : String × List Seg → Except String (List (List Seg)))
    (p : String × List Seg) (e : String)
    (hmem : p ∈ (groupByChromosome data).filter
      (fun q => minGroupSize ≤ (q.2.length : Int)))
    (herr : proc p = .error e) :
    ∃ e2, detectOptimizedFallible data minGroupSize proc = .error e2 := by
  obtain ⟨e2, h2⟩ := poolMapE_error proc _ p e hmem herr
  exact ⟨e2, by simp [detectOptimizedFallible, h2]⟩

/-- C5 counterexample: with segments on chromosomes "1" and "2" and a
per-chromosome worker that faults on chromosome "2" only, chromosome "1"
on its own succeeds with a group, yet the whole run returns a bare error:
the successful chromosome's groups are not returned, and the GUI handler
turns the fault into the single message `"Error during analysis: ..."`
without naming the failed chromosome. -/
theorem c5_counterexample :
    procFault ("1", [segA, segB]) = .ok [[segA, segB]] ∧
    detectOptimizedFallible dataC5 2 procFault = .error "boom" ∧
    runAnalysisOutcome (detectOptimizedFallible dataC5 2 procFault) =
      (.error "boom", "Error during analysis: boom") := by
  refine ⟨by rfl, by rfl, by rfl⟩

/-- Witness for C5's amended statement at a concrete input. -/
theorem c5_witness :
    ("2", [(⟨2, rowD2⟩ : Seg), ⟨3, rowE2⟩]) ∈ (groupByChromosome dataC5).filter
      (fun q => (2 : Int) ≤ (q.2.length : Int)) ∧
    procFault ("2", [⟨2, rowD2⟩, ⟨3, rowE2⟩]) = .error "boom" ∧
    (∃ e2, detectOptimizedFallible dataC5 2 procFault = .error e2) :=
  ⟨by decide, by rfl,
    c5_amended dataC5 2 procFault ("2", [⟨2, rowD2⟩, ⟨3, rowE2⟩]) "boom"
      (by decide) (by rfl)⟩

/-! ### C4: the strict pass and connected components -/

section DfsProofs

variable {n : Nat} (adj : Fin n → List (Fin n))

lemma dfsRun_visited_mono :
    ∀ (stack : List (Fin n)) (visited : Finset (Fin n)) (comp : List (Fin n)),
      visited ⊆ (dfsRun adj stack visited comp).1 := by
  intro stack visited comp
  induction stack, visited, comp using dfsRun.induct adj with
  | case1 visited comp =>
    simp [dfsRun]
  | case2 visited comp node rest hmem ih =>
    rw [dfsRun, if_pos hmem]
    exact ih
  | case3 visited comp node rest hmem ih =>
    rw [dfsRun, if_neg hmem]
    exact fun x hx => ih (Finset.mem_insert_of_mem hx)

lemma dfsRun_stack_visited :
    ∀ (stack : List (Fin n)) (visited : Finset (Fin n)) (comp : List (Fin n)),
      ∀ x ∈ stack, x ∈ (dfsRun adj stack visited comp).1 := by
  intro stack visited comp
  induction stack, visited, comp using dfsRun.induct adj with
  | case1 visited comp =>
    simp
  | case2 visited comp node rest hmem ih =>
    rw [dfsRun, if_pos hmem]
    intro x hx
    rcases List.mem_cons.mp hx with rfl | hx
    · exact dfsRun_visited_mono adj rest visited comp hmem
    · exact ih x hx
  | case3 visited comp node rest hmem ih =>
    rw [dfsRun, if_neg hmem]
    intro x hx
    rcases List.mem_cons.mp hx with rfl | hx
    · exact dfsRun_visited_mono adj _ _ _ (Finset.mem_insert_self x visited)
    · exact ih x (List.mem_append_right _ hx)

lemma dfsRun_sound :
    ∀ (stack : List (Fin n)) (visited : Finset (Fin n)) (comp : List (Fin n))
      (u : Fin n),
      u ∈ (dfsRun adj stack visited comp).1 →
      u ∈ visited ∨ ∃ s ∈ stack, Relation.ReflTransGen (fun a b => b ∈ adj a) s u := by
  intro stack visited comp
  induction stack, visited, comp using dfsRun.induct adj with
  | case1 visited comp =>
    intro u hu
    rw [dfsRun] at hu
    exact Or.inl hu
  | case2 visited comp node rest hmem ih =>
    intro u hu
    rw [dfsRun, if_pos hmem] at hu
    rcases ih u hu with h | ⟨s, hs, hr⟩
    · exact Or.inl h
    · exact Or.inr ⟨s, List.mem_cons_of_mem _ hs, hr⟩
  | case3 visited comp node rest hmem ih =>
    intro u hu
    rw [dfsRun, if_neg hmem] at hu
    rcases ih u hu with h | ⟨s, hs, hr⟩
    · rcases Finset.mem_insert.mp h with rfl | h
      · exact Or.inr ⟨u, List.mem_cons_self u rest, Relation.ReflTransGen.refl⟩
      · exact Or.inl h
    · rcases List.mem_append.mp hs with hs | hs
      · have hsadj : s ∈ adj node := List.mem_of_mem_filter (List.mem_reverse.mp hs)
        exact Or.inr ⟨node, List.mem_cons_self node rest,
          Relation.ReflTransGen.head hsadj hr⟩
      · exact Or.inr ⟨s, List.mem_cons_of_mem _ hs, hr⟩

lemma dfsRun_closure :
    ∀ (stack : List (Fin n)) (visited : Finset (Fin n)) (comp : List (Fin n)),
      ∀ u ∈ (dfsRun adj stack visited comp).1, u ∉ visited →
        ∀ w ∈ adj u, w ∈ (dfsRun adj stack visited comp).1 := by
  intro stack visited comp
  induction stack, visited, comp using dfsRun.induct adj with
  | case1 visited comp =>
    intro u hu hunv
    rw [dfsRun] at hu
    exact absurd hu hunv
  | case2 visited comp node rest hmem ih =>
    intro u hu hunv w hw
    rw [dfsRun, if_pos hmem] at hu ⊢
    exact ih u hu hunv w hw
  | case3 visited comp node rest hmem ih =>
    intro u hu hunv w hw
    rw [dfsRun, if_neg hmem] at hu ⊢
    by_cases hun : u = node
    · subst hun
      by_cases hwv : w ∈ insert u visited
      · exact dfsRun_visited_mono adj _ _ _ hwv
      · refine dfsRun_stack_visited adj _ _ _ w ?_
        refine List.mem_append_left _ ?_
        rw [List.mem_reverse]
        exact List.mem_filter.mpr ⟨hw, by simpa using hwv⟩
    · have hui : u ∉ insert node visited := by
        rw [Finset.mem_insert]
        tauto
      exact ih u hu hui w hw

lemma dfsRun_comp :
    ∀ (stack : List (Fin n)) (visited : Finset (Fin n)) (comp : List (Fin n)),
      ∃ d : List (Fin n), (dfsRun adj stack visited comp).2 = comp ++ d ∧
        d.Nodup ∧
        ∀ x, x ∈ d ↔ (x ∈ (dfsRun adj stack visited comp).1 ∧ x ∉ visited) := by
  intro stack visited comp
  induction stack, visited, comp using dfsRun.induct adj with
  | case1 visited comp =>
    refine ⟨[], by simp [dfsRun], List.nodup_nil, ?_⟩
    intro x
    rw [dfsRun]
    simp
  | case2 visited comp node rest hmem ih =>
    obtain ⟨d, h1, h2, h3⟩ := ih
    refine ⟨d, ?_, h2, ?_⟩
    · rw [dfsRun, if_pos hmem]
      exact h1
    · intro x
      rw [dfsRun, if_pos hmem]
      exact h3 x
  | case3 visited comp node rest hmem ih =>
    obtain ⟨d, h1, h2, h3⟩ := ih
    refine ⟨node :: d, ?_, ?_, ?_⟩
    · rw [dfsRun, if_neg hmem, h1]
      simp
    · refine List.nodup_cons.mpr ⟨?_, h2⟩
      intro hnd
      exact ((h3 node).mp hnd).2 (Finset.mem_insert_self node visited)
    · intro x
      rw [dfsRun, if_neg hmem]
      constructor
      · intro hx
        rcases List.mem_cons.mp hx with rfl | hx
        · exact ⟨dfsRun_visited_mono adj _ _ _ (Finset.mem_insert_self x visited), hmem⟩
        · obtain ⟨hv, hnv⟩ := (h3 x).mp hx
          refine ⟨hv, ?_⟩
          intro hxv
          exact hnv (Finset.mem_insert_of_mem hxv)
      · rintro ⟨hv, hnv⟩
        by_cases hxn : x = node
        · exact hxn ▸ List.mem_cons_self x d
        · refine List.mem_cons_of_mem _ ((h3 x).mpr ⟨hv, ?_⟩)
          rw [Finset.mem_insert]
          tauto

/-- With a symmetric adjacency and an adjacency-closed visited set, paths
starting outside the visited set stay outside it. -/
lemma reach_avoids_closed
    (hsym : ∀ a b : Fin n, b ∈ adj a ↔ a ∈ adj b)
    (V : Finset (Fin n)) (hclosed : ∀ u ∈ V, ∀ w ∈ adj u, w ∈ V)
    (s : Fin n) (hs : s ∉ V) :
    ∀ u, Relation.ReflTransGen (fun a b => b ∈ adj a) s u → u ∉ V := by
  intro u hr
  induction hr with
  | refl => exact hs
  | tail hab hbc ih =>
    rename_i b c
    intro hcV
    exact ih (hclosed c hcV b ((hsym b c).mp hbc))

/-- Reachability is symmetric over a symmetric adjacency. -/
lemma reach_symm (hsym : ∀ a b : Fin n, b ∈ adj a ↔ a ∈ adj b) :
    ∀ a b : Fin n, Relation.ReflTransGen (fun a b => b ∈ adj a) a b →
      Relation.ReflTransGen (fun a b => b ∈ adj a) b a := by
  intro a b hr
  induction hr with
  | refl => exact Relation.ReflTransGen.refl
  | tail hab hbc ih =>
    rename_i x y
    exact Relation.ReflTransGen.trans
      (Relation.ReflTransGen.single ((hsym y x).mpr hbc)) ih

/-- The full characterization of one DFS call launched on a fresh start
node over an adjacency-closed visited set: it visits exactly the old set
plus the start's connectivity component, collects that component exactly
once each, and leaves the visited set adjacency-closed again. -/
lemma dfsRun_component
    (hsym : ∀ a b : Fin n, b ∈ adj a ↔ a ∈ adj b)
    (V : Finset (Fin n)) (hclosed : ∀ u ∈ V, ∀ w ∈ adj u, w ∈ V)
    (s : Fin n) (hs : s ∉ V) :
    (∀ u, u ∈ (dfsRun adj [s] V []).1 ↔
      u ∈ V ∨ Relation.ReflTransGen (fun a b => b ∈ adj a) s u) ∧
    (dfsRun adj [s] V []).2.Nodup ∧
    (∀ x, x ∈ (dfsRun adj [s] V []).2 ↔
      Relation.ReflTransGen (fun a b => b ∈ adj a) s x) ∧
    (∀ u ∈ (dfsRun adj [s] V []).1, ∀ w ∈ adj u, w ∈ (dfsRun adj [s] V []).1) := by
  have hreach_in : ∀ u, Relation.ReflTransGen (fun a b => b ∈ adj a) s u →
      u ∈ (dfsRun adj [s] V []).1 := by
    intro u hr
    induction hr with
    | refl => exact dfsRun_stack_visited adj [s] V [] s (List.mem_cons_self s [])
    | tail hab hbc ih =>
      rename_i b c
      have hbV : b ∉ V := reach_avoids_closed adj hsym V hclosed s hs b hab
      exact dfsRun_closure adj [s] V [] b ih hbV c hbc
  have hchar : ∀ u, u ∈ (dfsRun adj [s] V []).1 ↔
      u ∈ V ∨ Relation.ReflTransGen (fun a b => b ∈ adj a) s u := by
    intro u
    constructor
    · intro hu
      rcases dfsRun_sound adj [s] V [] u hu with h | ⟨s', hs', hr⟩
      · exact Or.inl h
      · rcases List.mem_singleton.mp hs' with rfl
        exact Or.inr hr
    · rintro (h | h)
      · exact dfsRun_visited_mono adj [s] V [] h
      · exact hreach_in u h
  obtain ⟨d, h1, h2, h3⟩ := dfsRun_comp adj [s] V []
  have hd : (dfsRun adj [s] V []).2 = d := by simpa using h1
  refine ⟨hchar, by rw [hd]; exact h2, ?_, ?_⟩
  · intro x
    rw [hd]
    rw [h3 x]
    constructor
    · rintro ⟨hv, hnv⟩
      rcases (hchar x).mp hv with h | h
      · exact absurd h hnv
      · exact h
    · intro hr
      exact ⟨hreach_in x hr, reach_avoids_closed adj hsym V hclosed s hs x hr⟩
  · intro u hu w hw
    rcases (hchar u).mp hu with h | h
    · exact (hchar w).mpr (Or.inl (hclosed u h w hw))
    · have huV : u ∉ V := reach_avoids_closed adj hsym V hclosed s hs u h
      exact dfsRun_closure adj [s] V [] u hu huV w hw

/-- The outer loop invariant of `_find_connected_components`: starting from
an adjacency-closed visited set whose every member's component is no larger
than the current `largest`, the loop visits every remaining start node, and
ends with `largest` a full connectivity component whose size bounds the
component of every visited node. -/
lemma ccLoop_inv (hsym : ∀ a b : Fin n, b ∈ adj a ↔ a ∈ adj b) :
    ∀ (starts : List (Fin n)) (V : Finset (Fin n)) (largest : List (Fin n)),
      (∀ u ∈ V, ∀ w ∈ adj u, w ∈ V) →
      ((largest = [] ∧ V = ∅) ∨
        (largest.Nodup ∧ ∃ s, ∀ x, x ∈ largest ↔
          Relation.ReflTransGen (fun a b => b ∈ adj a) s x)) →
      (∀ v ∈ V, ∀ c' : List (Fin n), c'.Nodup →
        (∀ x, x ∈ c' ↔ Relation.ReflTransGen (fun a b => b ∈ adj a) v x) →
        c'.length ≤ largest.length) →
      (∀ u ∈ V, u ∈ (ccLoop adj starts (V, largest)).1) ∧
      (∀ x ∈ starts, x ∈ (ccLoop adj starts (V, largest)).1) ∧
      (((ccLoop adj starts (V, largest)).2 = [] ∧
          (ccLoop adj starts (V, largest)).1 = ∅) ∨
        ((ccLoop adj starts (V, largest)).2.Nodup ∧ ∃ s, ∀ x,
          x ∈ (ccLoop adj starts (V, largest)).2 ↔
            Relation.ReflTransGen (fun a b => b ∈ adj a) s x)) ∧
      (∀ v ∈ (ccLoop adj starts (V, largest)).1, ∀ c' : List (Fin n), c'.Nodup →
        (∀ x, x ∈ c' ↔ Relation.ReflTransGen (fun a b => b ∈ adj a) v x) →
        c'.length ≤ (ccLoop adj starts (V, largest)).2.length) := by
  intro starts
  induction starts with
  | nil =>
    intro V largest hclosed hlargest hbound
    exact ⟨fun u hu => hu, by simp, hlargest, hbound⟩
  | cons start rest ih =>
    intro V largest hclosed hlargest hbound
    by_cases hsv : start ∈ V
    · have hloop : ccLoop adj (start :: rest) (V, largest) =
          ccLoop adj rest (V, largest) := by
        simp only [ccLoop]
        rw [if_pos hsv]
      rw [hloop]
      obtain ⟨g1, g2, g3, g4⟩ := ih V largest hclosed hlargest hbound
      refine ⟨g1, ?_, g3, g4⟩
      intro x hx
      rcases List.mem_cons.mp hx with rfl | hx
      · exact g1 x hsv
      · exact g2 x hx
    · obtain ⟨hchar, hnodup, hcomp, hclosed'⟩ :=
        dfsRun_component adj hsym V hclosed start hsv
      have hloop : ccLoop adj (start :: rest) (V, largest) =
          ccLoop adj rest ((dfsRun adj [start] V []).1,
            if largest.length < (dfsRun adj [start] V []).2.length then
              (dfsRun adj [start] V []).2
            else largest) := by
        simp only [ccLoop]
        rw [if_neg hsv]
      rw [hloop]
      have hstartcomp : start ∈ (dfsRun adj [start] V []).2 :=
        (hcomp start).mpr Relation.ReflTransGen.refl
      have hlarge' : (if largest.length < (dfsRun adj [start] V []).2.length then
            (dfsRun adj [start] V []).2 else largest).Nodup ∧
          ∃ s, ∀ x, x ∈ (if largest.length <
              (dfsRun adj [start] V []).2.length then
              (dfsRun adj [start] V []).2 else largest) ↔
            Relation.ReflTransGen (fun a b => b ∈ adj a) s x := by
        by_cases hlt : largest.length < (dfsRun adj [start] V []).2.length
        · rw [if_pos hlt]
          exact ⟨hnodup, start, hcomp⟩
        · rw [if_neg hlt]
          rcases hlargest with ⟨hl0, -⟩ | h
          · exfalso
            rw [hl0] at hlt
            simp only [List.length_nil, not_lt, Nat.le_zero,
              List.length_eq_zero] at hlt
            rw [hlt] at hstartcomp
            exact absurd hstartcomp (List.not_mem_nil start)
          · exact h
      have hmono : largest.length ≤ (if largest.length <
            (dfsRun adj [start] V []).2.length then
            (dfsRun adj [start] V []).2 else largest).length := by
        by_cases hlt : largest.length < (dfsRun adj [start] V []).2.length
        · rw [if_pos hlt]
          exact le_of_lt hlt
        · rw [if_neg hlt]
      have hcomple : (dfsRun adj [start] V []).2.length ≤
          (if largest.length < (dfsRun adj [start] V []).2.length then
            (dfsRun adj [start] V []).2 else largest).length := by
        by_cases hlt : largest.length < (dfsRun adj [start] V []).2.length
        · rw [if_pos hlt]
        · rw [if_neg hlt]
          exact le_of_not_lt hlt
      have hbound' : ∀ v ∈ (dfsRun adj [start] V []).1, ∀ c' : List (Fin n),
          c'.Nodup →
          (∀ x, x ∈ c' ↔ Relation.ReflTransGen (fun a b => b ∈ adj a) v x) →
          c'.length ≤ (if largest.length <
            (dfsRun adj [start] V []).2.length then
            (dfsRun adj [start] V []).2 else largest).length := by
        intro v hv c' hc'nd hc'mem
        rcases (hchar v).mp hv with hvV | hvR
        · exact le_trans (hbound v hvV c' hc'nd hc'mem) hmono
        · have hsame : ∀ x, x ∈ c' ↔ x ∈ (dfsRun adj [start] V []).2 := by
            intro x
            rw [hc'mem x, hcomp x]
            constructor
            · intro hvx
              exact Relation.ReflTransGen.trans hvR hvx
            · intro hsx
              exact Relation.ReflTransGen.trans (reach_symm adj hsym _ _ hvR) hsx
          have hperm : c'.Perm (dfsRun adj [start] V []).2 :=
            (List.perm_ext_iff_of_nodup hc'nd hnodup).mpr hsame
          rw [hperm.length_eq]
          exact hcomple
      obtain ⟨g1, g2, g3, g4⟩ := ih (dfsRun adj [start] V []).1 _
        hclosed' (Or.inr hlarge') hbound'
      refine ⟨?_, ?_, g3, g4⟩
      · intro u hu
        exact g1 u ((hchar u).mpr (Or.inl hu))
      · intro x hx
        rcases List.mem_cons.mp hx with rfl | hx
        · exact g1 x ((hchar x).mpr (Or.inr Relation.ReflTransGen.refl))
        · exact g2 x hx

end DfsProofs

lemma overlapBp_comm (a b : Row) : overlapBp a b = overlapBp b a := by
  unfold overlapBp
  rw [min_comm a.endLocation b.endLocation, max_comm a.startLocation b.startLocation]

lemma neighbors_symm (segs : List Row) (T : Int) :
    ∀ i j : Fin segs.length, j ∈ neighbors segs T i ↔ i ∈ neighbors segs T j := by
  intro i j
  simp only [neighbors, List.mem_filter, List.mem_finRange, true_and,
    Bool.and_eq_true, bne_iff_ne, ne_eq, decide_eq_true_eq]
  rw [overlapBp_comm]
  constructor
  · rintro ⟨h1, h2⟩
    exact ⟨fun h => h1 h.symm, h2⟩
  · rintro ⟨h1, h2⟩
    exact ⟨fun h => h1 h.symm, h2⟩

lemma OvReach_eq (segs : List Row) (T : Int) :
    OvReach segs T =
      Relation.ReflTransGen (fun a b => b ∈ neighbors segs T a) := rfl

/-- C4 amended: for candidate sets of **more than five** segments, the
strict pass returns exactly one connectivity component of the
pairwise-overlap graph (edges between positions whose clamped overlap is
`≥ min_overlap_bp`), of maximal size among all components: there are a
node list `c` (without repetition) and a root `s` such that the returned
segments are `c`'s segments, `c` is precisely the component of `s`, and no
component of any node is larger.  (For 2–5 segments the pass instead runs
a greedy scan anchored at the first segment — see the counterexample.) -/
theorem c4_amended (segments : List Row) (minOverlapBp : Int)
    (hlen : 5 < segments.length) :
    ∃ (c : List (Fin segments.length)) (s : Fin segments.length),
      verify_triangulation_group segments minOverlapBp = c.map segments.get ∧
      c.Nodup ∧
      (∀ u, u ∈ c ↔ OvReach segments minOverlapBp s u) ∧
      (∀ (s' : Fin segments.length) (c' : List (Fin segments.length)),
        c'.Nodup → (∀ u, u ∈ c' ↔ OvReach segments minOverlapBp s' u) →
        c'.length ≤ c.length) := by
  have h2 : ¬ segments.length < 2 := by omega
  have h5 : ¬ segments.length ≤ 5 := by omega
  have hn : 0 < segments.length := by omega
  obtain ⟨g1, g2, g3, g4⟩ := ccLoop_inv (neighbors segments minOverlapBp)
    (neighbors_symm segments minOverlapBp) (List.finRange segments.length) ∅ []
    (by simp) (Or.inl ⟨rfl, rfl⟩) (by simp)
  have h0 : (⟨0, hn⟩ : Fin segments.length) ∈
      (ccLoop (neighbors segments minOverlapBp)
        (List.finRange segments.length) (∅, [])).1 :=
    g2 _ (List.mem_finRange _)
  rcases g3 with ⟨-, hempty⟩ | ⟨hnodup, s, hmem⟩
  · rw [hempty] at h0
    exact absurd h0 (Finset.not_mem_empty _)
  refine ⟨(ccLoop (neighbors segments minOverlapBp)
      (List.finRange segments.length) (∅, [])).2, s, ?_, hnodup, ?_, ?_⟩
  · rw [verify_triangulation_group.eq_def, if_neg h2, if_neg h5,
      find_connected_components, if_neg h2]
  · intro u
    rw [OvReach_eq]
    exact hmem u
  · intro s' c' hc'nd hc'mem
    refine g4 s' (g2 s' (List.mem_finRange s')) c' hc'nd ?_
    intro x
    rw [← OvReach_eq]
    exact hc'mem x

/-- C4 counterexample: on the four-segment candidate set `c4segs` with
threshold 1 — below six segments, so the greedy small-set path runs — the
pass returns only the isolated first segment, although the pairwise-overlap
graph has a three-element connected component (positions 1, 2, 3): for
candidate sets of at most five segments the strict pass does **not** return
the largest connected component. -/
theorem c4_counterexample :
    verify_triangulation_group c4segs 1 = [c4r0] ∧
    (∃ (s : Fin c4segs.length) (c : List (Fin c4segs.length)),
      c.Nodup ∧ (∀ u, u ∈ c ↔ OvReach c4segs 1 s u) ∧
      (verify_triangulation_group c4segs 1).length < c.length) := by
  have hcl : ∀ a, a ∈ ([⟨1, by decide⟩, ⟨2, by decide⟩, ⟨3, by decide⟩] :
        List (Fin c4segs.length)) →
      ∀ b : Fin c4segs.length, b ∈ neighbors c4segs 1 a →
        b ∈ ([⟨1, by decide⟩, ⟨2, by decide⟩, ⟨3, by decide⟩] :
          List (Fin c4segs.length)) := by decide
  refine ⟨by decide, ⟨1, by decide⟩,
    [⟨1, by decide⟩, ⟨2, by decide⟩, ⟨3, by decide⟩], by decide, ?_, by decide⟩
  intro u
  constructor
  · intro hu
    have h12 : (⟨2, by decide⟩ : Fin c4segs.length) ∈
        neighbors c4segs 1 ⟨1, by decide⟩ := by decide
    have h13 : (⟨3, by decide⟩ : Fin c4segs.length) ∈
        neighbors c4segs 1 ⟨1, by decide⟩ := by decide
    rcases List.mem_cons.mp hu with rfl | hu
    · exact Relation.ReflTransGen.refl
    rcases List.mem_cons.mp hu with rfl | hu
    · exact Relation.ReflTransGen.single h12
    rcases List.mem_cons.mp hu with rfl | hu
    · exact Relation.ReflTransGen.single h13
    · exact absurd hu (List.not_mem_nil u)
  · intro hr
    rw [OvReach_eq] at hr
    induction hr with
    | refl => decide
    | tail hab hbc ih =>
      rename_i b c
      exact hcl b ih c hbc

/-- Witness for C4's amended statement: the hypothesis holds for the
six-segment candidate set `c4big`, and the theorem yields the
maximal-component characterization for it. -/
theorem c4_witness :
    5 < c4big.length ∧
    (∃ (c : List (Fin c4big.length)) (s : Fin c4big.length),
      verify_triangulation_group c4big 1 = c.map c4big.get ∧
      c.Nodup ∧
      (∀ u, u ∈ c ↔ OvReach c4big 1 s u) ∧
      (∀ (s' : Fin c4big.length) (c' : List (Fin c4big.length)),
        c'.Nodup → (∀ u, u ∈ c' ↔ OvReach c4big 1 s' u) →
        c'.length ≤ c.length)) :=
  ⟨by decide, c4_amended c4big 1 (by decide)⟩
